import Mathlib

/-!
# Chat room server (`chatsrv.c`): session table, line protocol, event loop

A shallow embedding of the server of `src/chatsrv.c` with the constants of
`src/common.h`.

Modelling conventions.

* A C string is the list of its characters before the terminating NUL
  (`CStr`).  `set_name`, `remove_name`, `add_name` and the loop body work on
  these strings: they give the contents of `line` and of the rows of
  `username` in the runs in which every string fits its buffer (`MAX_NAME`
  bytes for a row, `BUF_SIZE` for `line` and `theline`).  The code checks no
  length.  What its copies store when a string does not fit is given on
  memory, a byte at every address (`strcpy`, `string_at`, `username_rows`);
  `username_rows_strcpy_fits` relates the two views.
* The arrays `userlink`, `userfd`, `username` of `main` are maps from index to
  value.  `main` only touches indices below `MAX_CLIENT`; the entry of
  `userlink` at `MAX_CLIENT` stands for the word that follows the array, which
  the loop of `user_free` reads when every slot is taken.
* `usermap` (`std::map<int, std::string>`) is a partial map; dereferencing
  `usermap.find(k)` when `k` is absent has no defined result, so the functions
  that do it return `Option`.
* `fd_set` is a predicate on descriptors.
* The operating system is an explicit input of each loop iteration (`Env`):
  what `select` reports, what `accept` returns, what each `read` returns.
  The calls made are recorded as a list of `Event`s.  Console output
  (`printf`, `perror`) is left out.
-/

namespace ChatSrv

/-! ## Constants of `common.h` -/

/-- A C string: its characters up to, not including, the terminating NUL. -/
abbrev CStr := List Char

/-- Value of `MAX_CLIENT`: maximum number of clients allowed. -/
def MAX_CLIENT : Nat := 30

/-- Value of `MAX_NAME`: the size of one row of `username`. -/
def MAX_NAME : Nat := 100

/-- Value of `BUF_SIZE`: the size of the buffers `line` and `theline`. -/
def BUF_SIZE : Nat := 512

/-- The character that terminates a C string. -/
def NUL : Char := Char.ofNat 0

/-- Value of `YEL`. -/
def YEL : CStr := "\x1B[33m".toList
/-- Value of `MAG`. -/
def MAG : CStr := "\x1B[35m".toList
/-- Value of `CYN`. -/
def CYN : CStr := "\x1B[36m".toList
/-- Value of `RESET`. -/
def RESET : CStr := "\x1B[0m".toList

/-! ## `user_free` -/

/-- The loop `while ((usrlink[i] != 0) && (i < MAX_CLIENT)) i++;` of
`user_free`, started at `i`; `fuel` bounds the number of tests of the loop
condition that remain.  The condition reads `usrlink[i]` before it compares
`i` with `MAX_CLIENT`. -/
def user_free_loop (usrlink : Nat → Int) : Nat → Nat → Nat
  | 0, i => i
  | fuel + 1, i =>
    if usrlink i ≠ 0 ∧ i < MAX_CLIENT then user_free_loop usrlink fuel (i + 1) else i

/-- The function `user_free`: `i` starts at 0, the loop runs, and the result is
`-1` when `i == MAX_CLIENT`, else `i`.  The loop condition is tested at most
`MAX_CLIENT + 1` times. -/
def user_free (usrlink : Nat → Int) : Int :=
  let i := user_free_loop usrlink (MAX_CLIENT + 1) 0
  if i = MAX_CLIENT then -1 else (i : Int)

/-! ## Line rewriting: `set_name`, `remove_name`, `add_name` -/

/-- The function `set_name(line, name)`: `strcpy(name, &line[1])`, then
`sprintf(line, "%s%s join the room...%s\n", MAG, name, RESET)`.
Returns the new contents of `line` and of `name`, as C strings.  Neither call
checks a length: the bytes stored when the name does not fit its row of
`MAX_NAME` bytes are given by `strcpy` on memory. -/
def set_name (line : CStr) : CStr × CStr :=
  let name := line.drop 1
  (MAG ++ name ++ " join the room...".toList ++ RESET ++ "\n".toList, name)

/-- The function `remove_name(line, name)`:
`sprintf(line, "%s%s leave the room...%s\n", MAG, name, RESET)`.
Returns the new contents of `line`. -/
def remove_name (name : CStr) : CStr :=
  MAG ++ name ++ " leave the room...".toList ++ RESET ++ "\n".toList

/-- The function `add_name(line, name, sockfd)`.  `userinfo` is
`usermap.find(sockfd)->second` (no defined result when the key is absent);
`theline` is `name`, then `": "`, then `line`; `msg.substr(0, msg.size()-1)`
is `theline` without its last character; the new `line` is
`sprintf(line, "%s%s %s[from %s]%s\n", YEL, ..., CYN, userinfo, RESET)`.
Returns the new contents of `line` as a C string.  No call checks a length:
the bytes stored when the string does not fit `line` (`BUF_SIZE` bytes) are
given by `strcpy` on memory. -/
def add_name (usermap : Int → Option CStr) (line name : CStr) (sockfd : Int) :
    Option CStr :=
  match usermap sockfd with
  | none => none
  | some userinfo =>
    let theline := name ++ ": ".toList ++ line
    some (YEL ++ theline.dropLast ++ " ".toList ++ CYN ++ "[from ".toList ++ userinfo
      ++ "]".toList ++ RESET ++ "\n".toList)

/-! ## Buffers in memory -/

/-- The call `strcpy(dst, src)` on memory `mem`, a byte at every address: the
characters of `src` and the terminating NUL are stored from address `dst`
upwards, whatever the size of the object at `dst`.  A `sprintf(dst, ...)`
stores its formatted string in the same way. -/
def strcpy (mem : Nat → Char) (dst : Nat) (src : CStr) : Nat → Char :=
  fun a =>
    if dst ≤ a ∧ a < dst + src.length then src.getD (a - dst) NUL
    else if a = dst + src.length then NUL
    else mem a

/-- The C string found at address `a`: the bytes from `a` upwards, up to the
first NUL; `fuel` bounds the number of bytes looked at. -/
def string_at (mem : Nat → Char) : Nat → Nat → CStr
  | 0, _ => []
  | fuel + 1, a => if mem a = NUL then [] else mem a :: string_at mem fuel (a + 1)

/-- The rows of `char username[MAX_CLIENT][MAX_NAME]` read as C strings, with
addresses counted from the start of the array: row `i` starts at
`i * MAX_NAME`, and the rows follow one another without a gap. -/
def username_rows (mem : Nat → Char) : Nat → CStr :=
  fun i => string_at mem (MAX_CLIENT * MAX_NAME) (i * MAX_NAME)

/-! ## Server state, environment, events -/

/-- The variables of `main` that live across loop iterations, and the global
`usermap`. -/
structure Server where
  /-- Variable `sockfd`: the listening socket. -/
  sockfd : Int
  /-- Array `userlink`: client connect status. -/
  userlink : Nat → Int
  /-- Array `userfd`: client connect fd. -/
  userfd : Nat → Int
  /-- Array `username`: user nickname. -/
  username : Nat → CStr
  /-- Global `usermap`: user info (`hostname:ip:fd`) by key. -/
  usermap : Int → Option CStr
  /-- Variable `sockset`. -/
  sockset : Int → Bool
  /-- Variable `maxfd`. -/
  maxfd : Int

/-- What a call of `read(userfd[i], line, BUF_SIZE)` returns: a negative
length, or the bytes stored in `line` (none of them: length 0). -/
inductive ReadResult where
  | error
  | bytes (b : List Char)
deriving DecidableEq, Repr

/-- The return value `length` of `read`. -/
def ReadResult.length : ReadResult → Int
  | .error => -1
  | .bytes b => (b.length : Int)

/-- The C string held in `line` once `line[length] = 0` is stored: the bytes
read, up to the first NUL among them. -/
def cstr (b : List Char) : CStr := b.takeWhile (fun c => c ≠ Char.ofNat 0)

/-- The operating system during one iteration of the `while (1)` loop. -/
structure Env where
  /-- Descriptors that `select` reports ready for reading. -/
  ready : Int → Bool
  /-- Return value of `accept`, if it is called. -/
  newsockfd : Int
  /-- The string `get_hostname(ipbuf)` returns for the accepted peer. -/
  hostname : CStr
  /-- The string `inet_ntoa(cli_addr.sin_addr)` gives for the accepted peer. -/
  ipbuf : CStr
  /-- Result of the `read` performed at loop index `i`, if it is performed. -/
  reads : Nat → ReadResult

/-- System calls made by the server. -/
inductive Event where
  | accept (newsockfd : Int)
  | read (fd : Int)
  | write (fd : Int) (line : CStr)
deriving DecidableEq, Repr

/-! ## `fd_set` and `std::map` operations -/

/-- Operation `FD_SET(fd, &set)`. -/
def FD_SET (fd : Int) (set : Int → Bool) : Int → Bool :=
  fun x => if x = fd then true else set x

/-- Operation `FD_CLR(fd, &set)`. -/
def FD_CLR (fd : Int) (set : Int → Bool) : Int → Bool :=
  fun x => if x = fd then false else set x

/-- Operation `FD_ZERO(&set)`. -/
def FD_ZERO : Int → Bool := fun _ => false

/-- Assignment `a[i] = v` of an array element. -/
def store {α : Type} (a : Nat → α) (i : Nat) (v : α) : Nat → α :=
  fun k => if k = i then v else a k

/-- Member `std::map::insert`: adds the pair only when the key is absent. -/
def map_insert (m : Int → Option CStr) (k : Int) (v : CStr) : Int → Option CStr :=
  match m k with
  | some _ => m
  | none => fun x => if x = k then some v else m x

/-- Member `std::map::erase(key)`. -/
def map_erase (m : Int → Option CStr) (k : Int) : Int → Option CStr :=
  fun x => if x = k then none else m x

/-- The function `max`. -/
def max (a b : Int) : Int := if a > b then a else b

/-! ## The loop body of `main` -/

/-- Start of `main` up to the `while (1)` loop: `sockfd` is the result of
`init_srv` (0 on failure, and then the server exits); `mem` gives the contents
of the variables that are not assigned before the loop. -/
def server_start (sockfd : Int) (mem : Server) : Option Server :=
  if sockfd = 0 then none
  else some
    { sockfd := sockfd
      userlink := fun i => if i < MAX_CLIENT then 0 else mem.userlink i
      userfd := mem.userfd
      username := fun i => if i < MAX_CLIENT then [] else mem.username i
      usermap := fun _ => none
      sockset := FD_SET sockfd FD_ZERO
      maxfd := max 0 (sockfd + 1) }

/-- The call `select(maxfd, &sockset, NULL, NULL, NULL)`: on return `sockset`
holds the descriptors of the set that are ready. -/
def select_step (s : Server) (e : Env) : Server :=
  { s with sockset := fun fd => s.sockset fd && e.ready fd }

/-- The string `userinfo`: `sprintf(userinfo, "%s:%s:%d", get_hostname(ipbuf),
ipbuf, userindex+4)`. -/
def userinfo (hostname ipbuf : CStr) (userindex : Nat) : CStr :=
  hostname ++ ":".toList ++ ipbuf ++ ":".toList ++ (Nat.repr (userindex + 4)).toList

/-- The block "new client connection" of the loop body (the `if` on
`FD_ISSET(sockfd, &sockset) && (userindex = user_free(userlink)) >= 0`). -/
def accept_step (s : Server) (e : Env) : Server × List Event :=
  if s.sockset s.sockfd = true ∧ 0 ≤ user_free s.userlink then
    let userindex := (user_free s.userlink).toNat
    if e.newsockfd < 0 then
      ({ s with userlink := store s.userlink userindex 0 }, [Event.accept e.newsockfd])
    else
      ({ s with
          userlink := store s.userlink userindex 1
          userfd := store s.userfd userindex e.newsockfd
          sockset := FD_SET e.newsockfd s.sockset
          maxfd := max s.maxfd (e.newsockfd + 1)
          usermap :=
            if (s.usermap e.newsockfd).isNone then
              map_insert s.usermap ((userindex : Int) + 4) (userinfo e.hostname e.ipbuf userindex)
            else s.usermap },
        [Event.accept e.newsockfd])
  else (s, [])

/-- The loop "distribute messages to all clients except the sender":
`for (j = ...; j < MAX_CLIENT; j++) if ((j != i) && (userlink[j] == 1))
write(userfd[j], line, strlen(line));` with `n` indices left, from `j`. -/
def distribute_loop (s : Server) (i : Nat) (line : CStr) : Nat → Nat → List Event
  | 0, _ => []
  | n + 1, j =>
    (if j ≠ i ∧ s.userlink j = 1 then [Event.write (s.userfd j) line] else [])
      ++ distribute_loop s i line n (j + 1)

/-- The whole distribution loop, `j` from 0 to `MAX_CLIENT - 1`. -/
def distribute (s : Server) (i : Nat) (line : CStr) : List Event :=
  distribute_loop s i line MAX_CLIENT 0

/-- The branch `length > 0` for the client at index `i`, after
`line[length] = 0`: classification of `line`, rewriting, and distribution. -/
def handle_line (s : Server) (i : Nat) (line : CStr) : Option (Server × List Event) :=
  if line.head? = some '/' ∧ s.username i = [] then
    -- set nick name
    let r := set_name line
    let s1 := { s with username := store s.username i r.2 }
    some (s1, distribute s1 i r.1)
  else if line.head? = some '/' ∧ line.get? 1 = some 'q' then
    -- user quit the chat room
    let line1 := remove_name (s.username i)
    match s.usermap ((i : Int) + 4) with
    | none => none
    | some _ =>
      let s1 :=
        { s with
            usermap := map_erase s.usermap ((i : Int) + 4)
            userlink := store s.userlink i 0
            username := store s.username i []
            sockset := FD_CLR (s.userfd i) s.sockset }
      some (s1, distribute s1 i line1)
  else
    -- build the message body
    match add_name s.usermap line (s.username i) ((i : Int) + 4) with
    | none => none
    | some line1 => some (s, distribute s i line1)

/-- The body of the loop "traverse clients to transfer messages" at index
`i`. -/
def client_step (s : Server) (e : Env) (i : Nat) : Option (Server × List Event) :=
  if s.userlink i = 1 ∧ s.sockset (s.userfd i) = true then
    let length := (e.reads i).length
    if length = 0 then
      some ({ s with
                userlink := store s.userlink i 0
                username := store s.username i []
                sockset := FD_CLR (s.userfd i) s.sockset },
            [Event.read (s.userfd i)])
    else if length > 0 then
      match e.reads i with
      | .error => some (s, [Event.read (s.userfd i)])
      | .bytes b =>
        match handle_line s i (cstr b) with
        | none => none
        | some (s1, out) => some (s1, Event.read (s.userfd i) :: out)
    else some (s, [Event.read (s.userfd i)])
  else some (s, [])

/-- The loop `for (i = ...; i < MAX_CLIENT; i++)` over the clients, with `n`
indices left, from `i`. -/
def clients_loop (e : Env) : Nat → Nat → Server → Option (Server × List Event)
  | 0, _, s => some (s, [])
  | n + 1, i, s =>
    match client_step s e i with
    | none => none
    | some (s1, out1) =>
      match clients_loop e n (i + 1) s1 with
      | none => none
      | some (s2, out2) => some (s2, out1 ++ out2)

/-- The loop of `add_sockset` over the clients, with `n` indices left, from
`i`: `if (usrlink[i] == 1) FD_SET(usrfd[i], sockset);`. -/
def add_sockset_loop (usrfd usrlink : Nat → Int) : Nat → Nat → (Int → Bool) → (Int → Bool)
  | 0, _, set => set
  | n + 1, i, set =>
    add_sockset_loop usrfd usrlink n (i + 1)
      (if usrlink i = 1 then FD_SET (usrfd i) set else set)

/-- The function `add_sockset(sockset, sockfd, usrfd, usrlink)`. -/
def add_sockset (sockfd : Int) (usrfd usrlink : Nat → Int) : Int → Bool :=
  add_sockset_loop usrfd usrlink MAX_CLIENT 0 (FD_SET sockfd FD_ZERO)

/-- One iteration of the `while (1)` loop of `main`. -/
def main_iteration (s : Server) (e : Env) : Option (Server × List Event) :=
  let s1 := select_step s e
  let r := accept_step s1 e
  match clients_loop e MAX_CLIENT 0 r.1 with
  | none => none
  | some (s3, out) =>
    some ({ s3 with sockset := add_sockset s3.sockfd s3.userfd s3.userlink }, r.2 ++ out)

/-- Runs the loop for a list of iterations, one `Env` each. -/
def main_loop : List Env → Server → Option (Server × List Event)
  | [], s => some (s, [])
  | e :: es, s =>
    match main_iteration s e with
    | none => none
    | some (s1, out1) =>
      match main_loop es s1 with
      | none => none
      | some (s2, out2) => some (s2, out1 ++ out2)

/-- States of the server at the top of the `while (1)` loop. -/
inductive Reachable : Server → Prop where
  | start (sockfd : Int) (mem s : Server) :
      server_start sockfd mem = some s → Reachable s
  | iteration (s s1 : Server) (e : Env) (out : List Event) :
      Reachable s → main_iteration s e = some (s1, out) → Reachable s1

/-! ## Observations used in the statements -/

/-- The relayed chat line in the words of the specification, decoration
included: `<name>: <text> [from <displayInfo>]`, a newline at the end. -/
def relayed_chat_line (name text displayInfo : CStr) : CStr :=
  YEL ++ name ++ ": ".toList ++ text ++ " ".toList ++ CYN ++ "[from ".toList ++ displayInfo
    ++ "]".toList ++ RESET ++ "\n".toList

/-- A table with two live clients in slots 0 and 1 (descriptors 4 and 5), no
nickname yet. -/
def two_clients : Server :=
  { sockfd := 3
    userlink := fun i => if i < 2 then 1 else 0
    userfd := fun i => (i : Int) + 4
    username := fun _ => []
    usermap := fun k => if k = 4 then some "hostA:10.0.0.1:4".toList
      else if k = 5 then some "hostB:10.0.0.2:5".toList else none
    sockset := fun k => decide (k = 3 ∨ k = 4 ∨ k = 5)
    maxfd := 6 }

/-- An environment in which the `read` at index `i` returns the bytes of `l`
and no connection is accepted. -/
def env_read (i : Nat) (l : String) : Env :=
  { ready := fun _ => true
    newsockfd := -1
    hostname := []
    ipbuf := []
    reads := fun k => if k = i then ReadResult.bytes l.toList else ReadResult.error }

/-- The ESC character that starts a colour sequence. -/
def ESC : Char := Char.ofNat 27

/-- Scanner of `without_colour`: `true` while inside an escape sequence. -/
def without_colour_scan : Bool → CStr → CStr
  | _, [] => []
  | true, c :: cs => if c = 'm' then without_colour_scan false cs else without_colour_scan true cs
  | false, c :: cs =>
    if c = ESC then without_colour_scan true cs else c :: without_colour_scan false cs

/-- A line with its colour decoration removed: every sequence from an ESC to
the next `m` is dropped. -/
def without_colour (line : CStr) : CStr := without_colour_scan false line

/-- The table `two_clients` after both clients have registered a nickname. -/
def alice_and_bob : Server :=
  { two_clients with username := fun i => if i = 0 then "Alice".toList
                                   else if i = 1 then "Bob".toList else [] }

/-- The lines written to descriptor `fd`, in order. -/
def written_to (fd : Int) : List Event → List CStr
  | [] => []
  | Event.write f l :: es => if f = fd then l :: written_to fd es else written_to fd es
  | _ :: es => written_to fd es

/-- An iteration in which only descriptor `fd` is ready and the `read` at
loop index `i` returns the bytes `l`. -/
def line_env (fd : Int) (i : Nat) (l : List Char) : Env :=
  { ready := fun k => decide (k = fd)
    newsockfd := -1
    hostname := []
    ipbuf := []
    reads := fun k => if k = i then ReadResult.bytes l else ReadResult.error }

/-- Contents chosen for the variables that `main` leaves unassigned. -/
def mem0 : Server :=
  { sockfd := 0, userlink := fun _ => 0, userfd := fun _ => 0, username := fun _ => [],
    usermap := fun _ => none, sockset := fun _ => false, maxfd := 0 }

/-- The state at the first `select`, listening on descriptor 3. -/
def state0 : Server :=
  { sockfd := 3
    userlink := fun i => if i < MAX_CLIENT then 0 else mem0.userlink i
    userfd := mem0.userfd
    username := fun i => if i < MAX_CLIENT then [] else mem0.username i
    usermap := fun _ => none
    sockset := FD_SET 3 FD_ZERO
    maxfd := max 0 (3 + 1) }

/-- Number of slots with link flag 1. -/
def live_count (s : Server) : Nat :=
  ((List.range MAX_CLIENT).filter (fun i => decide (s.userlink i = 1))).length

/-- Every link flag of the table is 0 or 1. -/
def link_flags_ok (userlink : Nat → Int) : Prop :=
  ∀ i, i < MAX_CLIENT → userlink i = 0 ∨ userlink i = 1

/-- An iteration in which only the listener is ready, `accept` returns `fd`
for a peer with the given host name and address, and the `read` that the loop
then performs on the new descriptor, at loop index `i`, returns the bytes
`l`. -/
def accept_read_env (fd : Int) (hostname ipbuf : CStr) (i : Nat) (l : List Char) : Env :=
  { ready := fun k => decide (k = 3)
    newsockfd := fd
    hostname := hostname
    ipbuf := ipbuf
    reads := fun k => if k = i then ReadResult.bytes l else ReadResult.error }

/-- The arrival of the client that takes slot `i` in a run from the start: the
listener is ready, `accept` returns descriptor `i + 4`, and the `read` on the
new descriptor returns the registration line `/guest`. -/
def arrival (i : Nat) : Env :=
  accept_read_env ((i : Int) + 4) "host".toList "10.0.0.9".toList i "/guest".toList

/-- The first `k` arrivals, one iteration each. -/
def arrivals (k : Nat) : List Env := (List.range k).map arrival

/-- A run in which slot 1 is taken by A, freed by a zero-length read, and
taken again by B, while C in slot 0 listens.  The server starts on descriptor
3; it accepts C (descriptor 4, slot 0) and reads `/Carol` from it; it accepts A
(descriptor 5, slot 1) and reads zero bytes from it; it accepts B (descriptor
6, slot 1) and reads `/Bob` from it; then it reads `hi` and a newline from
B. -/
def stale_info_run : Option (Server × List Event) :=
  (server_start 3 mem0).bind
    (main_loop [accept_read_env 4 "hostC".toList "10.0.0.3".toList 0 "/Carol".toList,
      accept_read_env 5 "hostA".toList "10.0.0.1".toList 1 [],
      accept_read_env 6 "hostB".toList "10.0.0.2".toList 1 "/Bob".toList,
      line_env 6 1 "hi\n".toList])

/-- The shape of the table in a run where the server listens on descriptor 3
and the clients in slots `0 .. k-1` hold descriptors `4 .. k+3`: link flags,
descriptors, nicknames `names`, `usermap` entries `info` under the keys
`4 .. k+3` and none above, listener and clients in `sockset`. -/
def standard_table (k : Nat) (names info : Nat → CStr) (s : Server) : Prop :=
  s.sockfd = 3 ∧
  (∀ i, i < MAX_CLIENT → s.userlink i = if i < k then 1 else 0) ∧
  (∀ i, i < k → s.userfd i = (i : Int) + 4) ∧
  (∀ i, i < MAX_CLIENT → s.username i = names i) ∧
  (∀ i, i < k → s.usermap ((i : Int) + 4) = some (info i)) ∧
  (∀ i, k ≤ i → s.usermap ((i : Int) + 4) = none) ∧
  s.sockset 3 = true ∧
  (∀ i, i < k → s.sockset ((i : Int) + 4) = true)

/-- The announcement of a registration, decoration included. -/
def join_line (name : CStr) : CStr :=
  MAG ++ name ++ " join the room...".toList ++ RESET ++ "\n".toList

/-- The descriptors on which `read` is called, in order. -/
def reads_of : List Event → List Int
  | [] => []
  | Event.read fd :: es => fd :: reads_of es
  | _ :: es => reads_of es

/-- One iteration from the start of the server on listening descriptor 3:
`select` reports the listener only, `accept` returns descriptor 4, and the
`read` on descriptor 4 returns `/Alice`. -/
def first_iteration : Option (Server × List Event) :=
  (server_start 3 mem0).bind
    (fun s => main_iteration s
      (accept_read_env 4 "hostA".toList "10.0.0.1".toList 0 "/Alice".toList))

/-! ## Lemmas on `user_free` -/

theorem user_free_loop_spec (usrlink : Nat → Int) :
    ∀ (fuel i : Nat), i ≤ MAX_CLIENT → MAX_CLIENT + 1 ≤ fuel + i →
      i ≤ user_free_loop usrlink fuel i ∧ user_free_loop usrlink fuel i ≤ MAX_CLIENT ∧
      (∀ j, i ≤ j → j < user_free_loop usrlink fuel i → usrlink j ≠ 0) ∧
      (user_free_loop usrlink fuel i < MAX_CLIENT → usrlink (user_free_loop usrlink fuel i) = 0) := by
  intro fuel
  induction fuel with
  | zero =>
    intro i hi hf
    omega
  | succ n ih =>
    intro i hi hf
    unfold user_free_loop
    by_cases hc : usrlink i ≠ 0 ∧ i < MAX_CLIENT
    · rw [if_pos hc]
      obtain ⟨h1, h2, h3, h4⟩ := ih (i + 1) (by omega) (by omega)
      refine ⟨by omega, h2, ?_, h4⟩
      intro j hj hjr
      rcases Nat.eq_or_lt_of_le hj with h | h
      · subst h; exact hc.1
      · exact h3 j h hjr
    · rw [if_neg hc]
      refine ⟨le_refl _, hi, ?_, ?_⟩
      · intro j hj hjr; omega
      · intro hlt
        by_contra h0
        exact hc ⟨h0, hlt⟩

/-- The bound on the number of tests is never what stops the loop: with any
larger bound the loop returns the same index. -/
theorem user_free_loop_fuel (usrlink : Nat → Int) (n : Nat) :
    user_free_loop usrlink (MAX_CLIENT + 1 + n) 0 = user_free_loop usrlink (MAX_CLIENT + 1) 0 := by
  obtain ⟨_, a2, a3, a4⟩ :=
    user_free_loop_spec usrlink (MAX_CLIENT + 1 + n) 0 (Nat.zero_le _) (by omega)
  obtain ⟨_, b2, b3, b4⟩ :=
    user_free_loop_spec usrlink (MAX_CLIENT + 1) 0 (Nat.zero_le _) (by omega)
  rcases Nat.lt_trichotomy (user_free_loop usrlink (MAX_CLIENT + 1 + n) 0)
    (user_free_loop usrlink (MAX_CLIENT + 1) 0) with h | h | h
  · exact absurd (a4 (by omega)) (b3 _ (Nat.zero_le _) h)
  · exact h
  · exact absurd (b4 (by omega)) (a3 _ (Nat.zero_le _) h)

theorem user_free_eq_of_lowest (usrlink : Nat → Int) (i : Nat) (hi : i < MAX_CLIENT)
    (h0 : usrlink i = 0) (hlow : ∀ j, j < i → usrlink j ≠ 0) :
    user_free usrlink = (i : Int) := by
  obtain ⟨_, h2, h3, h4⟩ := user_free_loop_spec usrlink (MAX_CLIENT + 1) 0 (Nat.zero_le _) (by omega)
  have hr : user_free_loop usrlink (MAX_CLIENT + 1) 0 = i := by
    rcases Nat.lt_trichotomy (user_free_loop usrlink (MAX_CLIENT + 1) 0) i with h | h | h
    · exact absurd (h4 (by omega)) (hlow _ h)
    · exact h
    · exact absurd h0 (h3 i (Nat.zero_le _) h)
  unfold user_free
  simp only [hr]
  rw [if_neg (by omega)]

theorem user_free_eq_neg_one_iff (usrlink : Nat → Int) :
    user_free usrlink = -1 ↔ ∀ i, i < MAX_CLIENT → usrlink i ≠ 0 := by
  obtain ⟨_, h2, h3, h4⟩ := user_free_loop_spec usrlink (MAX_CLIENT + 1) 0 (Nat.zero_le _) (by omega)
  unfold user_free
  constructor
  · intro h
    by_cases hr : user_free_loop usrlink (MAX_CLIENT + 1) 0 = MAX_CLIENT
    · intro i hi
      exact h3 i (Nat.zero_le _) (by omega)
    · simp only [if_neg hr] at h
      omega
  · intro h
    by_cases hr : user_free_loop usrlink (MAX_CLIENT + 1) 0 = MAX_CLIENT
    · simp only [if_pos hr]
    · exact absurd (h4 (by omega)) (h _ (by omega))

/-! ## Lemmas on the distribution loop and on `handle_line` -/

theorem distribute_loop_eq (s : Server) (i : Nat) (line : CStr) :
    ∀ (n j : Nat), distribute_loop s i line n j =
      ((List.range' j n).filter (fun k => decide (k ≠ i ∧ s.userlink k = 1))).map
        (fun k => Event.write (s.userfd k) line) := by
  intro n
  induction n with
  | zero => intro j; rfl
  | succ n ih =>
    intro j
    unfold distribute_loop
    rw [ih (j + 1), List.range'_succ, List.filter_cons]
    by_cases hc : j ≠ i ∧ s.userlink j = 1
    · simp [hc]
    · simp [hc]

theorem distribute_eq (s : Server) (i : Nat) (line : CStr) :
    distribute s i line =
      ((List.range MAX_CLIENT).filter (fun k => decide (k ≠ i ∧ s.userlink k = 1))).map
        (fun k => Event.write (s.userfd k) line) := by
  unfold distribute
  rw [distribute_loop_eq, List.range_eq_range']

theorem distribute_congr (s t : Server) (i : Nat) (line : CStr)
    (hfd : t.userfd = s.userfd) (hlink : ∀ j, j ≠ i → t.userlink j = s.userlink j) :
    distribute t i line = distribute s i line := by
  rw [distribute_eq, distribute_eq, hfd]
  congr 1
  apply List.filter_congr
  intro j _
  by_cases hj : j = i
  · simp [hj]
  · simp [hj, hlink j hj]

theorem cstr_cons (c : Char) (b : List Char) (hc : c ≠ Char.ofNat 0) :
    cstr (c :: b) = c :: cstr b := by
  simp [cstr, List.takeWhile, hc]

theorem store_same {α : Type} (a : Nat → α) (i : Nat) (v : α) : store a i v i = v := by
  simp [store]

theorem store_other {α : Type} (a : Nat → α) (i k : Nat) (v : α) (h : k ≠ i) :
    store a i v k = a k := by
  simp [store, h]

/-- Branch "set nick name" of `handle_line`. -/
theorem handle_line_set_name (s : Server) (i : Nat) (rest : CStr) (hname : s.username i = []) :
    handle_line s i ('/' :: rest) =
      some ({ s with username := store s.username i rest },
        distribute s i (MAG ++ rest ++ " join the room...".toList ++ RESET ++ "\n".toList)) := by
  unfold handle_line
  rw [if_pos ⟨rfl, hname⟩]
  simp only [set_name, List.drop_succ_cons, List.drop_zero]
  congr 2

/-- Branch "user quit the chat room" of `handle_line`. -/
theorem handle_line_quit (s : Server) (i : Nat) (rest d : CStr) (hname : s.username i ≠ [])
    (hmap : s.usermap ((i : Int) + 4) = some d) :
    handle_line s i ('/' :: 'q' :: rest) =
      some ({ s with
                usermap := map_erase s.usermap ((i : Int) + 4)
                userlink := store s.userlink i 0
                username := store s.username i []
                sockset := FD_CLR (s.userfd i) s.sockset },
        distribute s i (remove_name (s.username i))) := by
  unfold handle_line
  rw [if_neg (fun h => hname h.2), if_pos ⟨rfl, rfl⟩]
  simp only [hmap]
  congr 2
  apply distribute_congr
  · rfl
  · intro j hj
    exact store_other _ _ _ _ hj

/-- Branch "build the message body" of `handle_line`. -/
theorem handle_line_chat (s : Server) (i : Nat) (line : CStr)
    (h1 : ¬ (line.head? = some '/' ∧ s.username i = []))
    (h2 : ¬ (line.head? = some '/' ∧ line.get? 1 = some 'q')) :
    handle_line s i line =
      (add_name s.usermap line (s.username i) ((i : Int) + 4)).map
        (fun line1 => (s, distribute s i line1)) := by
  unfold handle_line
  rw [if_neg h1, if_neg h2]
  cases add_name s.usermap line (s.username i) ((i : Int) + 4) <;> rfl

/-- The line of every branch goes to the same recipients. -/
theorem handle_line_out (s s1 : Server) (i : Nat) (line : CStr) (out : List Event)
    (h : handle_line s i line = some (s1, out)) :
    ∃ line1, out = distribute s i line1 := by
  unfold handle_line at h
  split at h
  · simp only [Option.some.injEq, Prod.mk.injEq] at h
    refine ⟨(set_name line).1, ?_⟩
    rw [← h.2]
    exact distribute_congr _ _ _ _ rfl (fun _ _ => rfl)
  · split at h
    · split at h
      · exact absurd h (by simp)
      · simp only [Option.some.injEq, Prod.mk.injEq] at h
        refine ⟨remove_name (s.username i), ?_⟩
        rw [← h.2]
        exact distribute_congr _ _ _ _ rfl (fun j hj => store_other _ _ _ _ hj)
    · split at h
      · exact absurd h (by simp)
      · rename_i line1 _
        simp only [Option.some.injEq, Prod.mk.injEq] at h
        exact ⟨line1, h.2.symm⟩

theorem handle_line_isSome (s : Server) (i : Nat) (line : CStr)
    (hmap : (s.usermap ((i : Int) + 4)).isSome = true) : (handle_line s i line).isSome = true := by
  obtain ⟨d, hd⟩ := Option.isSome_iff_exists.mp hmap
  unfold handle_line
  split
  · rfl
  · split
    · simp [hd]
    · simp [add_name, hd]

theorem without_colour_scan_append (a b : CStr) (ha : ESC ∉ a) :
    without_colour_scan false (a ++ b) = a ++ without_colour_scan false b := by
  induction a with
  | nil => rfl
  | cons c cs ih =>
    have hc : c ≠ ESC := fun h => ha (by simp [h])
    have hcs : ESC ∉ cs := fun h => ha (by simp [h])
    simp [without_colour_scan, hc, ih hcs]

theorem client_step_bytes (s : Server) (e : Env) (i : Nat) (b : List Char)
    (hlive : s.userlink i = 1) (hready : s.sockset (s.userfd i) = true)
    (hread : e.reads i = ReadResult.bytes b) (hpos : b ≠ []) :
    client_step s e i =
      (handle_line s i (cstr b)).map (fun r => (r.1, Event.read (s.userfd i) :: r.2)) := by
  unfold client_step
  rw [if_pos ⟨hlive, hready⟩]
  have hlen : (e.reads i).length = ((b.length : Nat) : Int) := by
    rw [hread]; rfl
  have hb : 0 < b.length := List.length_pos.mpr hpos
  simp only [hlen]
  rw [if_neg (by omega), if_pos (by omega)]
  simp only [hread]
  cases handle_line s i (cstr b) <;> rfl

theorem cstr_slash_q (b : List Char) :
    cstr ('/' :: 'q' :: b) = '/' :: 'q' :: cstr b := by
  rw [cstr_cons '/' _ (by decide), cstr_cons 'q' _ (by decide)]

theorem of_cstr_slash_q (b : List Char)
    (h : (cstr b).head? = some '/' ∧ (cstr b).get? 1 = some 'q') :
    ∃ r, b = '/' :: 'q' :: r := by
  match b, h with
  | [], h => simp [cstr] at h
  | [c], h =>
    by_cases hc : c = Char.ofNat 0
    · simp [cstr, List.takeWhile, hc] at h
    · simp [cstr, List.takeWhile, hc] at h
  | c :: c2 :: r, h =>
    by_cases hc : c = Char.ofNat 0
    · simp [cstr, List.takeWhile, hc] at h
    · by_cases hc2 : c2 = Char.ofNat 0
      · simp [cstr, List.takeWhile, hc, hc2] at h
      · simp [cstr, List.takeWhile, hc, hc2] at h
        exact ⟨r, by rw [h.1, h.2]⟩

theorem user_free_spec (usrlink : Nat → Int) :
    ((∃ i, i < MAX_CLIENT ∧ usrlink i = 0) →
      ∃ k : Nat, k < MAX_CLIENT ∧ user_free usrlink = (k : Int) ∧ usrlink k = 0 ∧
        ∀ j, j < k → usrlink j ≠ 0) ∧
    (user_free usrlink = -1 ↔ ∀ i, i < MAX_CLIENT → usrlink i ≠ 0) := by
  refine ⟨?_, user_free_eq_neg_one_iff usrlink⟩
  rintro ⟨i, hi, h0⟩
  have hex : ∃ k, k < MAX_CLIENT ∧ usrlink k = 0 := ⟨i, hi, h0⟩
  classical
  refine ⟨Nat.find hex, (Nat.find_spec hex).1, ?_, (Nat.find_spec hex).2, ?_⟩
  · apply user_free_eq_of_lowest usrlink _ (Nat.find_spec hex).1 (Nat.find_spec hex).2
    intro j hj hj0
    exact Nat.find_min hex hj ⟨lt_trans hj (Nat.find_spec hex).1, hj0⟩
  · intro j hj hj0
    exact Nat.find_min hex hj ⟨lt_trans hj (Nat.find_spec hex).1, hj0⟩

theorem dropLast_append_newline (a : CStr) : (a ++ "\n".toList).dropLast = a := by
  exact List.dropLast_concat

theorem link_flags_ok_store (a : Nat → Int) (k : Nat) (v : Int) (ha : link_flags_ok a)
    (hv : v = 0 ∨ v = 1) : link_flags_ok (store a k v) := by
  intro i hi
  by_cases hik : i = k
  · rw [hik, store_same]; exact hv
  · rw [store_other _ _ _ _ hik]; exact ha i hi

theorem link_flags_ok_accept_step (s : Server) (e : Env) (h : link_flags_ok s.userlink) :
    link_flags_ok (accept_step s e).1.userlink := by
  unfold accept_step
  split
  · split
    · exact link_flags_ok_store _ _ _ h (Or.inl rfl)
    · exact link_flags_ok_store _ _ _ h (Or.inr rfl)
  · exact h

theorem link_flags_ok_handle_line (s s1 : Server) (i : Nat) (line : CStr) (out : List Event)
    (h : link_flags_ok s.userlink) (hs : handle_line s i line = some (s1, out)) :
    link_flags_ok s1.userlink := by
  unfold handle_line at hs
  split at hs
  · simp only [Option.some.injEq, Prod.mk.injEq] at hs
    rw [← hs.1]; exact h
  · split at hs
    · split at hs
      · exact absurd hs (by simp)
      · simp only [Option.some.injEq, Prod.mk.injEq] at hs
        rw [← hs.1]; exact link_flags_ok_store _ _ _ h (Or.inl rfl)
    · split at hs
      · exact absurd hs (by simp)
      · simp only [Option.some.injEq, Prod.mk.injEq] at hs
        rw [← hs.1]; exact h

theorem client_step_idle (s : Server) (e : Env) (i : Nat)
    (h : ¬ (s.userlink i = 1 ∧ s.sockset (s.userfd i) = true)) :
    client_step s e i = some (s, []) := by
  unfold client_step
  rw [if_neg h]

theorem client_step_error (s : Server) (e : Env) (i : Nat)
    (hlive : s.userlink i = 1) (hready : s.sockset (s.userfd i) = true)
    (hread : e.reads i = ReadResult.error) :
    client_step s e i = some (s, [Event.read (s.userfd i)]) := by
  unfold client_step
  rw [if_pos ⟨hlive, hready⟩]
  simp [hread, ReadResult.length]

theorem client_step_closed (s : Server) (e : Env) (i : Nat)
    (hlive : s.userlink i = 1) (hready : s.sockset (s.userfd i) = true)
    (hread : e.reads i = ReadResult.bytes []) :
    client_step s e i =
      some ({ s with
                userlink := store s.userlink i 0
                username := store s.username i []
                sockset := FD_CLR (s.userfd i) s.sockset },
            [Event.read (s.userfd i)]) := by
  unfold client_step
  rw [if_pos ⟨hlive, hready⟩]
  simp [hread, ReadResult.length]

theorem link_flags_ok_client_step (s s1 : Server) (e : Env) (i : Nat) (out : List Event)
    (h : link_flags_ok s.userlink) (hs : client_step s e i = some (s1, out)) :
    link_flags_ok s1.userlink := by
  by_cases hc : s.userlink i = 1 ∧ s.sockset (s.userfd i) = true
  · cases hr : e.reads i with
    | error =>
      rw [client_step_error s e i hc.1 hc.2 hr] at hs
      simp only [Option.some.injEq, Prod.mk.injEq] at hs
      rw [← hs.1]; exact h
    | bytes b =>
      by_cases hb : b = []
      · rw [hb] at hr
        rw [client_step_closed s e i hc.1 hc.2 hr] at hs
        simp only [Option.some.injEq, Prod.mk.injEq] at hs
        rw [← hs.1]; exact link_flags_ok_store _ _ _ h (Or.inl rfl)
      · rw [client_step_bytes s e i b hc.1 hc.2 hr hb] at hs
        cases hh : handle_line s i (cstr b) with
        | none => rw [hh] at hs; exact absurd hs (by simp)
        | some r =>
          obtain ⟨t, o⟩ := r
          rw [hh] at hs
          simp only [Option.map_some', Option.some.injEq, Prod.mk.injEq] at hs
          rw [← hs.1]
          exact link_flags_ok_handle_line s t i _ o h hh
  · rw [client_step_idle s e i hc] at hs
    simp only [Option.some.injEq, Prod.mk.injEq] at hs
    rw [← hs.1]; exact h

theorem link_flags_ok_clients_loop (e : Env) :
    ∀ (n i : Nat) (s s1 : Server) (out : List Event), link_flags_ok s.userlink →
      clients_loop e n i s = some (s1, out) → link_flags_ok s1.userlink := by
  intro n
  induction n with
  | zero =>
    intro i s s1 out h hs
    simp only [clients_loop, Option.some.injEq, Prod.mk.injEq] at hs
    rw [← hs.1]; exact h
  | succ n ih =>
    intro i s s1 out h hs
    unfold clients_loop at hs
    cases hc : client_step s e i with
    | none => rw [hc] at hs; exact absurd hs (by simp)
    | some r =>
      obtain ⟨t, o⟩ := r
      rw [hc] at hs
      simp only at hs
      cases hl : clients_loop e n (i + 1) t with
      | none => rw [hl] at hs; exact absurd hs (by simp)
      | some r2 =>
        obtain ⟨t2, o2⟩ := r2
        rw [hl] at hs
        simp only [Option.some.injEq, Prod.mk.injEq] at hs
        rw [← hs.1]
        exact ih (i + 1) t t2 o2 (link_flags_ok_client_step s t e i o h hc) hl

theorem link_flags_ok_main_iteration (s s1 : Server) (e : Env) (out : List Event)
    (h : link_flags_ok s.userlink) (hs : main_iteration s e = some (s1, out)) :
    link_flags_ok s1.userlink := by
  unfold main_iteration at hs
  simp only at hs
  cases hl : clients_loop e MAX_CLIENT 0 (accept_step (select_step s e) e).1 with
  | none => rw [hl] at hs; exact absurd hs (by simp)
  | some r =>
    obtain ⟨t, o⟩ := r
    rw [hl] at hs
    simp only [Option.some.injEq, Prod.mk.injEq] at hs
    rw [← hs.1]
    exact link_flags_ok_clients_loop e _ _ _ t o
      (link_flags_ok_accept_step (select_step s e) e h) hl

theorem link_flags_ok_of_reachable (s : Server) (hr : Reachable s) :
    link_flags_ok s.userlink := by
  induction hr with
  | start sockfd mem s hs =>
    unfold server_start at hs
    split at hs
    · exact absurd hs (by simp)
    · simp only [Option.some.injEq] at hs
      rw [← hs]
      intro i hi
      left
      simp [hi]
  | iteration s s1 e out _ hs ih => exact link_flags_ok_main_iteration s s1 e out ih hs

theorem live_count_le (s : Server) : live_count s ≤ MAX_CLIENT := by
  unfold live_count
  calc ((List.range MAX_CLIENT).filter (fun i => decide (s.userlink i = 1))).length
      ≤ (List.range MAX_CLIENT).length := List.length_filter_le _ _
    _ = MAX_CLIENT := List.length_range _

theorem live_count_eq_max_iff (s : Server) :
    live_count s = MAX_CLIENT ↔ ∀ i, i < MAX_CLIENT → s.userlink i = 1 := by
  unfold live_count
  have h := @List.filter_length_eq_length _ (fun i => decide (s.userlink i = 1))
    (List.range MAX_CLIENT)
  rw [List.length_range] at h
  rw [h]
  simp only [List.mem_range, decide_eq_true_eq]

/-! ## Lemmas on `add_sockset` -/

theorem add_sockset_loop_iff (usrfd usrlink : Nat → Int) (x : Int) :
    ∀ (n i : Nat) (set : Int → Bool), add_sockset_loop usrfd usrlink n i set x = true ↔
      set x = true ∨ ∃ j, i ≤ j ∧ j < i + n ∧ usrlink j = 1 ∧ usrfd j = x := by
  intro n
  induction n with
  | zero =>
    intro i set
    simp only [add_sockset_loop, Nat.add_zero]
    constructor
    · intro h; exact Or.inl h
    · rintro (h | ⟨j, h1, h2, _⟩)
      · exact h
      · omega
  | succ n ih =>
    intro i set
    unfold add_sockset_loop
    rw [ih]
    constructor
    · rintro (h | ⟨j, h1, h2, h3, h4⟩)
      · by_cases hl : usrlink i = 1
        · rw [if_pos hl] at h
          unfold FD_SET at h
          by_cases hx : x = usrfd i
          · exact Or.inr ⟨i, le_refl _, by omega, hl, hx.symm⟩
          · rw [if_neg hx] at h; exact Or.inl h
        · rw [if_neg hl] at h; exact Or.inl h
      · exact Or.inr ⟨j, by omega, by omega, h3, h4⟩
    · rintro (h | ⟨j, h1, h2, h3, h4⟩)
      · left
        by_cases hl : usrlink i = 1
        · rw [if_pos hl]; unfold FD_SET; split
          · rfl
          · exact h
        · rw [if_neg hl]; exact h
      · rcases Nat.eq_or_lt_of_le h1 with hij | hij
        · left
          subst hij
          rw [if_pos h3]
          unfold FD_SET
          rw [if_pos h4.symm]
        · exact Or.inr ⟨j, hij, by omega, h3, h4⟩

theorem add_sockset_iff (sockfd : Int) (usrfd usrlink : Nat → Int) (x : Int) :
    add_sockset sockfd usrfd usrlink x = true ↔
      x = sockfd ∨ ∃ j, j < MAX_CLIENT ∧ usrlink j = 1 ∧ usrfd j = x := by
  unfold add_sockset
  rw [add_sockset_loop_iff]
  constructor
  · rintro (h | ⟨j, _, h2, h3, h4⟩)
    · left
      unfold FD_SET FD_ZERO at h
      by_contra hx
      rw [if_neg hx] at h
      exact absurd h (by decide)
    · exact Or.inr ⟨j, by omega, h3, h4⟩
  · rintro (h | ⟨j, h2, h3, h4⟩)
    · left
      unfold FD_SET
      rw [if_pos h]
    · exact Or.inr ⟨j, Nat.zero_le _, by omega, h3, h4⟩

/-! ## Lemmas on the loop over the clients -/

theorem written_to_append (fd : Int) (a b : List Event) :
    written_to fd (a ++ b) = written_to fd a ++ written_to fd b := by
  induction a with
  | nil => rfl
  | cons x xs ih =>
    cases x with
    | accept f => simpa [written_to] using ih
    | read f => simpa [written_to] using ih
    | write f l =>
      by_cases h : f = fd
      · simp [written_to, h, ih]
      · simp [written_to, h, ih]

theorem handle_line_frame (s s1 : Server) (i : Nat) (line : CStr) (out : List Event)
    (h : handle_line s i line = some (s1, out)) :
    (∀ j, j ≠ i → s1.userlink j = s.userlink j) ∧ s1.userfd = s.userfd ∧
    (∀ x, s1.sockset x = true → s.sockset x = true) ∧ s1.sockfd = s.sockfd := by
  unfold handle_line at h
  split at h
  · simp only [Option.some.injEq, Prod.mk.injEq] at h
    rw [← h.1]
    exact ⟨fun _ _ => rfl, rfl, fun _ hx => hx, rfl⟩
  · split at h
    · split at h
      · exact absurd h (by simp)
      · simp only [Option.some.injEq, Prod.mk.injEq] at h
        rw [← h.1]
        refine ⟨fun j hj => store_other _ _ _ _ hj, rfl, ?_, rfl⟩
        intro x hx
        simp only [FD_CLR] at hx
        split at hx
        · exact absurd hx (by decide)
        · exact hx
    · split at h
      · exact absurd h (by simp)
      · simp only [Option.some.injEq, Prod.mk.injEq] at h
        rw [← h.1]
        exact ⟨fun _ _ => rfl, rfl, fun _ hx => hx, rfl⟩

theorem client_step_frame (s s1 : Server) (e : Env) (i : Nat) (out : List Event)
    (h : client_step s e i = some (s1, out)) :
    (∀ j, j ≠ i → s1.userlink j = s.userlink j) ∧ s1.userfd = s.userfd ∧
    (∀ x, s1.sockset x = true → s.sockset x = true) ∧ s1.sockfd = s.sockfd := by
  by_cases hc : s.userlink i = 1 ∧ s.sockset (s.userfd i) = true
  · cases hr : e.reads i with
    | error =>
      rw [client_step_error s e i hc.1 hc.2 hr] at h
      simp only [Option.some.injEq, Prod.mk.injEq] at h
      rw [← h.1]
      exact ⟨fun _ _ => rfl, rfl, fun _ hx => hx, rfl⟩
    | bytes b =>
      by_cases hb : b = []
      · rw [hb] at hr
        rw [client_step_closed s e i hc.1 hc.2 hr] at h
        simp only [Option.some.injEq, Prod.mk.injEq] at h
        rw [← h.1]
        refine ⟨fun j hj => store_other _ _ _ _ hj, rfl, ?_, rfl⟩
        intro x hx
        simp only [FD_CLR] at hx
        split at hx
        · exact absurd hx (by decide)
        · exact hx
      · rw [client_step_bytes s e i b hc.1 hc.2 hr hb] at h
        cases hh : handle_line s i (cstr b) with
        | none => rw [hh] at h; exact absurd h (by simp)
        | some r =>
          obtain ⟨t, o⟩ := r
          rw [hh] at h
          simp only [Option.map_some', Option.some.injEq, Prod.mk.injEq] at h
          rw [← h.1]
          exact handle_line_frame s t i _ o hh
  · rw [client_step_idle s e i hc] at h
    simp only [Option.some.injEq, Prod.mk.injEq] at h
    rw [← h.1]
    exact ⟨fun _ _ => rfl, rfl, fun _ hx => hx, rfl⟩

theorem clients_loop_idle (e : Env) :
    ∀ (n i : Nat) (s : Server),
      (∀ j, i ≤ j → j < i + n → ¬ (s.userlink j = 1 ∧ s.sockset (s.userfd j) = true)) →
      clients_loop e n i s = some (s, []) := by
  intro n
  induction n with
  | zero => intro i s _; rfl
  | succ n ih =>
    intro i s h
    unfold clients_loop
    rw [client_step_idle s e i (h i (le_refl _) (by omega))]
    simp only
    rw [ih (i + 1) s (fun j h1 h2 => h j (by omega) (by omega))]
    rfl

theorem clients_loop_single (e : Env) (a : Nat) :
    ∀ (n i : Nat) (s s1 : Server) (out : List Event), i ≤ a → a < i + n →
      (∀ j, i ≤ j → j < i + n → j ≠ a →
        ¬ (s.userlink j = 1 ∧ s.sockset (s.userfd j) = true)) →
      client_step s e a = some (s1, out) →
      clients_loop e n i s = some (s1, out) := by
  intro n
  induction n with
  | zero => intro i s s1 out h1 h2; omega
  | succ n ih =>
    intro i s s1 out h1 h2 hidle hstep
    unfold clients_loop
    rcases Nat.eq_or_lt_of_le h1 with hia | hia
    · subst hia
      rw [hstep]
      simp only
      obtain ⟨hl, hfd, hset, _⟩ := client_step_frame s s1 e i out hstep
      rw [clients_loop_idle e n (i + 1) s1]
      · simp
      · intro j hj1 hj2 hact
        have hji : j ≠ i := by omega
        apply hidle j (by omega) (by omega) hji
        rw [← hl j hji, ← hfd]
        exact ⟨hact.1, hset _ hact.2⟩
    · rw [client_step_idle s e i (hidle i (le_refl _) (by omega) (by omega))]
      simp only
      rw [ih (i + 1) s s1 out (by omega) (by omega)
        (fun j hj1 hj2 hja => hidle j (by omega) (by omega) hja) hstep]
      simp

theorem main_loop_cons (e : Env) (es : List Env) (s s1 s2 : Server) (out1 out2 : List Event)
    (h1 : main_iteration s e = some (s1, out1)) (h2 : main_loop es s1 = some (s2, out2)) :
    main_loop (e :: es) s = some (s2, out1 ++ out2) := by
  unfold main_loop
  rw [h1]
  simp only
  rw [h2]

/-- An iteration in which the listener is not ready and slot `a` is the only
live slot whose descriptor is ready. -/
theorem main_iteration_single (s s1 : Server) (e : Env) (a : Nat) (out : List Event)
    (hlisten : (s.sockset s.sockfd && e.ready s.sockfd) = false)
    (ha : a < MAX_CLIENT)
    (hidle : ∀ j, j < MAX_CLIENT → j ≠ a →
      ¬ (s.userlink j = 1 ∧ (s.sockset (s.userfd j) && e.ready (s.userfd j)) = true))
    (hstep : client_step (select_step s e) e a = some (s1, out)) :
    main_iteration s e =
      some ({ s1 with sockset := add_sockset s1.sockfd s1.userfd s1.userlink }, out) := by
  have hacc : accept_step (select_step s e) e = (select_step s e, []) := by
    unfold accept_step
    rw [if_neg]
    intro h
    have h1 : (s.sockset s.sockfd && e.ready s.sockfd) = true := h.1
    rw [hlisten] at h1
    exact absurd h1 (by decide)
  have hloop : clients_loop e MAX_CLIENT 0 (select_step s e) = some (s1, out) := by
    apply clients_loop_single e a MAX_CLIENT 0 _ s1 out (Nat.zero_le _) (by omega) _ hstep
    intro j _ hj hja
    exact hidle j (by omega) hja
  unfold main_iteration
  simp only [hacc, hloop, List.nil_append]

/-! ## Runs over a standard table -/

theorem standard_table_of_fields (k : Nat) (names info names1 : Nat → CStr) (s t : Server)
    (ht : standard_table k names info s) (hk : k ≤ MAX_CLIENT)
    (h1 : t.sockfd = s.sockfd) (h2 : t.userlink = s.userlink) (h3 : t.userfd = s.userfd)
    (h4 : ∀ i, i < MAX_CLIENT → t.username i = names1 i) (h5 : t.usermap = s.usermap)
    (h6 : t.sockset = add_sockset t.sockfd t.userfd t.userlink) :
    standard_table k names1 info t := by
  obtain ⟨a1, a2, a3, _, a5, a6, _, _⟩ := ht
  refine ⟨h1.trans a1, ?_, ?_, h4, ?_, ?_, ?_, ?_⟩
  · rw [h2]; exact a2
  · rw [h3]; exact a3
  · rw [h5]; exact a5
  · rw [h5]; exact a6
  · rw [h6, add_sockset_iff]; left; rw [h1, a1]
  · intro i hi
    rw [h6, add_sockset_iff]
    right
    refine ⟨i, by omega, ?_, ?_⟩
    · rw [h2, a2 i (by omega), if_pos hi]
    · rw [h3]; exact a3 i hi

theorem standard_table_start (mem s : Server) (info : Nat → CStr)
    (h : server_start 3 mem = some s) : standard_table 0 (fun _ => []) info s := by
  unfold server_start at h
  rw [if_neg (by decide)] at h
  simp only [Option.some.injEq] at h
  rw [← h]
  refine ⟨rfl, ?_, ?_, ?_, ?_, ?_, ?_, ?_⟩
  · intro i hi; simp [hi]
  · intro i hi; omega
  · intro i hi; simp [hi]
  · intro i hi; omega
  · intro i _; rfl
  · rfl
  · intro i hi; omega

theorem standard_table_distribute (k : Nat) (names info : Nat → CStr) (s : Server) (a : Nat)
    (line : CStr) (ht : standard_table k names info s) :
    distribute s a line =
      ((List.range MAX_CLIENT).filter (fun j => decide (j ≠ a ∧ j < k))).map
        (fun j : Nat => Event.write ((j : Int) + 4) line) := by
  obtain ⟨_, a2, a3, _, _, _, _, _⟩ := ht
  have hf : (List.range MAX_CLIENT).filter (fun j => decide (j ≠ a ∧ s.userlink j = 1)) =
      (List.range MAX_CLIENT).filter (fun j => decide (j ≠ a ∧ j < k)) := by
    apply List.filter_congr
    intro j hj
    rw [List.mem_range] at hj
    rw [a2 j hj]
    by_cases hjk : j < k
    · simp [hjk]
    · simp [hjk]
  rw [distribute_eq, hf]
  apply List.map_congr_left
  intro j hj
  rw [List.mem_filter] at hj
  have hjk : j < k := (of_decide_eq_true hj.2).2
  rw [a3 j hjk]

theorem standard_table_line (k : Nat) (names info : Nat → CStr) (s s1 : Server) (a : Nat)
    (b : List Char) (out : List Event) (ht : standard_table k names info s)
    (hk : k ≤ MAX_CLIENT) (ha : a < k) (hb : b ≠ [])
    (hh : handle_line (select_step s (line_env ((a : Int) + 4) a b)) a (cstr b) =
      some (s1, out)) :
    main_iteration s (line_env ((a : Int) + 4) a b) =
      some ({ s1 with sockset := add_sockset s1.sockfd s1.userfd s1.userlink },
        Event.read ((a : Int) + 4) :: out) := by
  obtain ⟨a1, a2, a3, _, _, _, a7, a8⟩ := ht
  have hfd : s.userfd a = (a : Int) + 4 := a3 a ha
  apply main_iteration_single s s1 _ a _ _ (by omega)
  · intro j hj hja hact
    have hjk : j < k := by
      by_contra hjk
      have := hact.1
      rw [a2 j hj, if_neg hjk] at this
      exact absurd this (by decide)
    have h2 := hact.2
    rw [a3 j hjk] at h2
    have hne : ¬ ((j : Int) + 4 = (a : Int) + 4) := by omega
    simp [line_env, hne] at h2
  · have hlive : (select_step s (line_env ((a : Int) + 4) a b)).userlink a = 1 := by
      show s.userlink a = 1
      rw [a2 a (by omega), if_pos ha]
    have hready : (select_step s (line_env ((a : Int) + 4) a b)).sockset
        ((select_step s (line_env ((a : Int) + 4) a b)).userfd a) = true := by
      show (s.sockset (s.userfd a) && decide (s.userfd a = (a : Int) + 4)) = true
      rw [hfd, a8 a ha]
      simp
    have hread : (line_env ((a : Int) + 4) a b).reads a = ReadResult.bytes b := by
      simp [line_env]
    rw [client_step_bytes _ _ a b hlive hready hread hb, hh]
    show some (s1, Event.read (s.userfd a) :: out) = _
    rw [hfd]
  · rw [a1]
    have hne : ¬ ((3 : Int) = (a : Int) + 4) := by omega
    simp [line_env, hne]

theorem standard_table_register (k : Nat) (names info : Nat → CStr) (s : Server) (a : Nat)
    (rest : List Char) (ht : standard_table k names info s) (hk : k ≤ MAX_CLIENT) (ha : a < k)
    (hname : names a = []) :
    ∃ s1, main_iteration s (line_env ((a : Int) + 4) a ('/' :: rest)) =
        some (s1, Event.read ((a : Int) + 4) ::
          ((List.range MAX_CLIENT).filter (fun j => decide (j ≠ a ∧ j < k))).map
            (fun j : Nat => Event.write ((j : Int) + 4)
              (MAG ++ cstr rest ++ " join the room...".toList ++ RESET ++ "\n".toList))) ∧
      standard_table k (store names a (cstr rest)) info s1 := by
  have ht1 := ht
  obtain ⟨_, _, _, a4, _, _, _, _⟩ := ht1
  have hun : (select_step s (line_env ((a : Int) + 4) a ('/' :: rest))).username a = [] := by
    show s.username a = []
    rw [a4 a (by omega), hname]
  have hh := handle_line_set_name _ a (cstr rest) hun
  rw [← cstr_cons '/' rest (by decide)] at hh
  have hd : distribute (select_step s (line_env ((a : Int) + 4) a ('/' :: rest))) a
      (MAG ++ cstr rest ++ " join the room...".toList ++ RESET ++ "\n".toList) =
      distribute s a (MAG ++ cstr rest ++ " join the room...".toList ++ RESET ++ "\n".toList) :=
    distribute_congr _ _ _ _ rfl (fun _ _ => rfl)
  rw [hd, standard_table_distribute k names info s a _ ht] at hh
  refine ⟨_, standard_table_line k names info s _ a _ _ ht hk ha (by simp) hh, ?_⟩
  refine standard_table_of_fields k names info _ s _ ht hk ?_ ?_ ?_ ?_ ?_ ?_
  · rfl
  · rfl
  · rfl
  rotate_left
  · rfl
  · rfl
  intro i hi
  show store s.username a (cstr rest) i = store names a (cstr rest) i
  by_cases hia : i = a
  · rw [hia, store_same, store_same]
  · rw [store_other _ _ _ _ hia, store_other _ _ _ _ hia, a4 i hi]

/-- The accept block when the listener is in `sockset`, slot `k` is the one
`user_free` returns, and `accept` returns a descriptor. -/
theorem accept_step_admits (t : Server) (e : Env) (k : Nat)
    (hlisten : t.sockset t.sockfd = true) (hfree : user_free t.userlink = (k : Int))
    (hacc : 0 ≤ e.newsockfd) :
    accept_step t e =
      ({ t with
          userlink := store t.userlink k 1
          userfd := store t.userfd k e.newsockfd
          sockset := FD_SET e.newsockfd t.sockset
          maxfd := max t.maxfd (e.newsockfd + 1)
          usermap :=
            if (t.usermap e.newsockfd).isNone then
              map_insert t.usermap ((k : Int) + 4) (userinfo e.hostname e.ipbuf k)
            else t.usermap },
        [Event.accept e.newsockfd]) := by
  unfold accept_step
  rw [if_pos ⟨hlisten, by rw [hfree]; omega⟩, if_neg (by omega)]
  simp only [hfree, Int.toNat_ofNat]

/-- An iteration in which the listener is ready, slot `k` is the lowest free
one, `accept` returns a descriptor, and slot `k` is then the only live slot
whose descriptor is in `sockset`. -/
theorem main_iteration_arrival (s s1 : Server) (e : Env) (k : Nat) (out : List Event)
    (hlisten : (s.sockset s.sockfd && e.ready s.sockfd) = true)
    (hfree : user_free s.userlink = (k : Int)) (hk : k < MAX_CLIENT) (hacc : 0 ≤ e.newsockfd)
    (hidle : ∀ j, j < MAX_CLIENT → j ≠ k →
      ¬ (s.userlink j = 1 ∧ FD_SET e.newsockfd (select_step s e).sockset (s.userfd j) = true))
    (hstep : client_step (accept_step (select_step s e) e).1 e k = some (s1, out)) :
    main_iteration s e =
      some ({ s1 with sockset := add_sockset s1.sockfd s1.userfd s1.userlink },
        Event.accept e.newsockfd :: out) := by
  have hadm := accept_step_admits (select_step s e) e k hlisten hfree hacc
  have hloop : clients_loop e MAX_CLIENT 0 (accept_step (select_step s e) e).1 =
      some (s1, out) := by
    apply clients_loop_single e k MAX_CLIENT 0 _ s1 out (Nat.zero_le _) (by omega) _ hstep
    intro j _ hj hjk hact
    rw [hadm] at hact
    apply hidle j (by omega) hjk
    have h1 : store s.userlink k 1 j = 1 := hact.1
    have h2 : FD_SET e.newsockfd (select_step s e).sockset (store s.userfd k e.newsockfd j)
        = true := hact.2
    rw [store_other _ _ _ _ hjk] at h1 h2
    exact ⟨h1, h2⟩
  unfold main_iteration
  simp only [hloop]
  rw [hadm]
  rfl

theorem distribute_of_links (s : Server) (k a : Nat) (line : CStr)
    (a2 : ∀ i, i < MAX_CLIENT → s.userlink i = if i < k then 1 else 0)
    (a3 : ∀ i, i < k → s.userfd i = (i : Int) + 4) :
    distribute s a line =
      ((List.range MAX_CLIENT).filter (fun j => decide (j ≠ a ∧ j < k))).map
        (fun j : Nat => Event.write ((j : Int) + 4) line) := by
  have hf : (List.range MAX_CLIENT).filter (fun j => decide (j ≠ a ∧ s.userlink j = 1)) =
      (List.range MAX_CLIENT).filter (fun j => decide (j ≠ a ∧ j < k)) := by
    apply List.filter_congr
    intro j hj
    rw [List.mem_range] at hj
    rw [a2 j hj]
    by_cases hjk : j < k
    · simp [hjk]
    · simp [hjk]
  rw [distribute_eq, hf]
  apply List.map_congr_left
  intro j hj
  rw [List.mem_filter] at hj
  have hjk : j < k := (of_decide_eq_true hj.2).2
  rw [a3 j hjk]

/-- A client arrives at a standard table: it is accepted into slot `k` with
descriptor `k + 4`, and the `read` that the loop performs on it in the same
iteration returns its registration line. -/
theorem standard_table_arrival (k : Nat) (names info : Nat → CStr) (s : Server)
    (hostname ipbuf : CStr) (rest : List Char) (ht : standard_table k names info s)
    (hk : k < MAX_CLIENT) (hname : names k = []) :
    ∃ s1, main_iteration s
        (accept_read_env ((k : Int) + 4) hostname ipbuf k ('/' :: rest)) =
        some (s1, Event.accept ((k : Int) + 4) :: Event.read ((k : Int) + 4) ::
          ((List.range MAX_CLIENT).filter (fun j => decide (j ≠ k ∧ j < k + 1))).map
            (fun j : Nat => Event.write ((j : Int) + 4) (join_line (cstr rest)))) ∧
      standard_table (k + 1) (store names k (cstr rest))
        (store info k (userinfo hostname ipbuf k)) s1 := by
  obtain ⟨a1, a2, a3, a4, a5, a6, a7, a8⟩ := ht
  have hfree : user_free s.userlink = (k : Int) := by
    apply user_free_eq_of_lowest _ k hk
    · rw [a2 k hk, if_neg (Nat.lt_irrefl k)]
    · intro j hj
      rw [a2 j (by omega), if_pos hj]; decide
  have hlisten : (s.sockset s.sockfd &&
      (accept_read_env ((k : Int) + 4) hostname ipbuf k ('/' :: rest)).ready s.sockfd) = true := by
    rw [a1, a7]; rfl
  have hacc : (0 : Int) ≤
      (accept_read_env ((k : Int) + 4) hostname ipbuf k ('/' :: rest)).newsockfd := by
    show (0 : Int) ≤ (k : Int) + 4; omega
  have hadm := accept_step_admits
    (select_step s (accept_read_env ((k : Int) + 4) hostname ipbuf k ('/' :: rest)))
    (accept_read_env ((k : Int) + 4) hostname ipbuf k ('/' :: rest)) k hlisten hfree hacc
  have hnone : s.usermap ((k : Int) + 4) = none := a6 k (le_refl _)
  have hlink : ∀ i, i < MAX_CLIENT → store s.userlink k 1 i = if i < k + 1 then 1 else 0 := by
    intro i hi
    by_cases hik : i = k
    · rw [hik, store_same, if_pos (Nat.lt_succ_self k)]
    · rw [store_other _ _ _ _ hik, a2 i hi]
      by_cases hlt : i < k
      · rw [if_pos hlt, if_pos (by omega)]
      · rw [if_neg hlt, if_neg (by omega)]
  have hfd : ∀ i, i < k + 1 → store s.userfd k ((k : Int) + 4) i = (i : Int) + 4 := by
    intro i hi
    by_cases hik : i = k
    · rw [hik, store_same]
    · rw [store_other _ _ _ _ hik]; exact a3 i (by omega)
  -- the state after the accept block
  obtain ⟨t, ht', t_link, t_fd, t_name, t_sockfd, t_set, t_map0⟩ : ∃ t : Server,
      (accept_step
        (select_step s (accept_read_env ((k : Int) + 4) hostname ipbuf k ('/' :: rest)))
        (accept_read_env ((k : Int) + 4) hostname ipbuf k ('/' :: rest))).1 = t ∧
      t.userlink = store s.userlink k 1 ∧
      t.userfd = store s.userfd k ((k : Int) + 4) ∧
      t.username = s.username ∧ t.sockfd = s.sockfd ∧
      t.sockset = FD_SET ((k : Int) + 4)
        (select_step s (accept_read_env ((k : Int) + 4) hostname ipbuf k ('/' :: rest))).sockset ∧
      t.usermap = (if (s.usermap ((k : Int) + 4)).isNone then
        map_insert s.usermap ((k : Int) + 4) (userinfo hostname ipbuf k) else s.usermap) :=
    ⟨{ sockfd := s.sockfd
       userlink := store s.userlink k 1
       userfd := store s.userfd k ((k : Int) + 4)
       username := s.username
       usermap := if (s.usermap ((k : Int) + 4)).isNone then
         map_insert s.usermap ((k : Int) + 4) (userinfo hostname ipbuf k) else s.usermap
       sockset := FD_SET ((k : Int) + 4)
         (select_step s (accept_read_env ((k : Int) + 4) hostname ipbuf k ('/' :: rest))).sockset
       maxfd := max s.maxfd ((k : Int) + 4 + 1) },
     by rw [hadm]; rfl, rfl, rfl, rfl, rfl, rfl, rfl⟩
  have t_map : t.usermap =
      fun x => if x = (k : Int) + 4 then some (userinfo hostname ipbuf k) else s.usermap x := by
    rw [t_map0, hnone]
    simp only [Option.isNone_none, if_true]
    unfold map_insert
    rw [hnone]
  -- the step of the new client
  have hlive : t.userlink k = 1 := by rw [t_link, store_same]
  have hready : t.sockset (t.userfd k) = true := by
    rw [t_set, t_fd, store_same]
    unfold FD_SET
    rw [if_pos rfl]
  have hread : (accept_read_env ((k : Int) + 4) hostname ipbuf k ('/' :: rest)).reads k =
      ReadResult.bytes ('/' :: rest) := by
    simp [accept_read_env]
  have hun : t.username k = [] := by rw [t_name, a4 k hk, hname]
  have hstep := client_step_bytes t _ k _ hlive hready hread (by simp)
  rw [cstr_cons '/' rest (by decide), handle_line_set_name t k (cstr rest) hun,
    distribute_of_links t (k + 1) k _ (by rw [t_link]; exact hlink) (by rw [t_fd]; exact hfd)]
    at hstep
  have hfdk : t.userfd k = (k : Int) + 4 := by rw [t_fd, store_same]
  rw [hfdk] at hstep
  have hidle : ∀ j, j < MAX_CLIENT → j ≠ k →
      ¬ (s.userlink j = 1 ∧ FD_SET
        (accept_read_env ((k : Int) + 4) hostname ipbuf k ('/' :: rest)).newsockfd
        (select_step s (accept_read_env ((k : Int) + 4) hostname ipbuf k ('/' :: rest))).sockset
        (s.userfd j) = true) := by
    intro j hj hjk hact
    have hjlt : j < k := by
      by_contra hnot
      have := hact.1
      rw [a2 j hj, if_neg hnot] at this
      exact absurd this (by decide)
    have h2 := hact.2
    rw [a3 j hjlt] at h2
    have hne1 : ¬ ((j : Int) + 4 = (k : Int) + 4) := by omega
    have hne2 : ¬ ((j : Int) + 4 = 3) := by omega
    simp [FD_SET, select_step, accept_read_env, hne1, hne2] at h2
  have hit := main_iteration_arrival s _ _ k _ hlisten hfree hk hacc hidle
    (by rw [ht']; exact hstep)
  refine ⟨_, hit, ?_⟩
  refine ⟨t_sockfd.trans a1, ?_, ?_, ?_, ?_, ?_, ?_, ?_⟩
  · show ∀ i, i < MAX_CLIENT → t.userlink i = _
    rw [t_link]; exact hlink
  · show ∀ i, i < k + 1 → t.userfd i = _
    rw [t_fd]; exact hfd
  · intro i hi
    show store t.username k (cstr rest) i = store names k (cstr rest) i
    rw [t_name]
    by_cases hik : i = k
    · rw [hik, store_same, store_same]
    · rw [store_other _ _ _ _ hik, store_other _ _ _ _ hik, a4 i hi]
  · intro i hi
    show t.usermap ((i : Int) + 4) = _
    rw [t_map]
    beta_reduce
    by_cases hik : i = k
    · rw [hik, store_same]; simp
    · have hne : ¬ ((i : Int) + 4 = (k : Int) + 4) := by omega
      rw [store_other _ _ _ _ hik, if_neg hne]
      exact a5 i (by omega)
  · intro i hi
    show t.usermap ((i : Int) + 4) = _
    rw [t_map]
    beta_reduce
    have hne : ¬ ((i : Int) + 4 = (k : Int) + 4) := by omega
    rw [if_neg hne]
    exact a6 i (by omega)
  · show add_sockset t.sockfd t.userfd t.userlink 3 = true
    rw [add_sockset_iff]; left; rw [t_sockfd, a1]
  · intro i hi
    show add_sockset t.sockfd t.userfd t.userlink ((i : Int) + 4) = true
    rw [add_sockset_iff]
    right
    refine ⟨i, by omega, ?_, ?_⟩
    · rw [t_link, hlink i (by omega), if_pos hi]
    · rw [t_fd]; exact hfd i hi

theorem main_loop_append (es fs : List Env) :
    ∀ (s s1 s2 : Server) (out1 out2 : List Event), main_loop es s = some (s1, out1) →
      main_loop fs s1 = some (s2, out2) → main_loop (es ++ fs) s = some (s2, out1 ++ out2) := by
  induction es with
  | nil =>
    intro s s1 s2 out1 out2 h1 h2
    simp only [main_loop, Option.some.injEq, Prod.mk.injEq] at h1
    rw [← h1.1] at h2
    rw [← h1.2]
    exact h2
  | cons e es ih =>
    intro s s1 s2 out1 out2 h1 h2
    unfold main_loop at h1
    cases hi : main_iteration s e with
    | none => rw [hi] at h1; exact absurd h1 (by simp)
    | some r =>
      obtain ⟨t, o⟩ := r
      rw [hi] at h1
      simp only at h1
      cases hl : main_loop es t with
      | none => rw [hl] at h1; exact absurd h1 (by simp)
      | some r2 =>
        obtain ⟨t2, o2⟩ := r2
        rw [hl] at h1
        simp only [Option.some.injEq, Prod.mk.injEq] at h1
        have h2' : main_loop fs t2 = some (s2, out2) := by rw [h1.1]; exact h2
        have := main_loop_cons e (es ++ fs) s t s2 o (o2 ++ out2) hi (ih t t2 s2 o2 out2 hl h2')
        rw [List.cons_append, this, ← h1.2, List.append_assoc]

theorem reachable_main_loop (es : List Env) :
    ∀ (s s1 : Server) (out : List Event), Reachable s → main_loop es s = some (s1, out) →
      Reachable s1 := by
  induction es with
  | nil =>
    intro s s1 out hr h
    simp only [main_loop, Option.some.injEq, Prod.mk.injEq] at h
    rw [← h.1]; exact hr
  | cons e es ih =>
    intro s s1 out hr h
    unfold main_loop at h
    cases hi : main_iteration s e with
    | none => rw [hi] at h; exact absurd h (by simp)
    | some r =>
      obtain ⟨t, o⟩ := r
      rw [hi] at h
      simp only at h
      cases hl : main_loop es t with
      | none => rw [hl] at h; exact absurd h (by simp)
      | some r2 =>
        obtain ⟨t2, o2⟩ := r2
        rw [hl] at h
        simp only [Option.some.injEq, Prod.mk.injEq] at h
        rw [← h.1]
        exact ih t t2 o2 (Reachable.iteration s t e o hr hi) hl

/-- After the first `k` arrivals the table is a standard table with `k`
clients. -/
theorem arrivals_table (s0 : Server) (info0 : Nat → CStr)
    (h0 : standard_table 0 (fun _ => []) info0 s0) :
    ∀ k, k ≤ MAX_CLIENT → ∃ (names info : Nat → CStr) (s : Server) (out : List Event),
      main_loop (arrivals k) s0 = some (s, out) ∧ standard_table k names info s ∧
      ∀ i, k ≤ i → names i = [] := by
  intro k
  induction k with
  | zero =>
    intro _
    exact ⟨fun _ => [], info0, s0, [], rfl, h0, fun _ _ => rfl⟩
  | succ k ih =>
    intro hk
    obtain ⟨names, info, s, out, hrun, ht, hn⟩ := ih (by omega)
    obtain ⟨s1, h1, t1⟩ := standard_table_arrival k names info s "host".toList
      "10.0.0.9".toList "guest".toList ht (by omega) (hn k (le_refl _))
    have hstep := main_loop_cons (arrival k) [] s s1 s1 _ [] h1 rfl
    have happ := main_loop_append (arrivals k) [arrival k] s0 s s1 out _ hrun hstep
    have harr : arrivals (k + 1) = arrivals k ++ [arrival k] := by
      unfold arrivals
      rw [List.range_succ, List.map_append]
      rfl
    rw [← harr] at happ
    refine ⟨_, _, s1, _, happ, t1, ?_⟩
    · intro i hi
      rw [store_other _ _ _ _ (by omega)]
      exact hn i (by omega)

/-! ## Lemmas on buffers in memory -/

theorem strcpy_outside (mem : Nat → Char) (dst : Nat) (src : CStr) (a : Nat)
    (h : a < dst ∨ dst + src.length < a) : strcpy mem dst src a = mem a := by
  unfold strcpy
  rw [if_neg (by omega), if_neg (by omega)]

theorem string_at_strcpy (mem : Nat → Char) (dst : Nat) (src : CStr)
    (hsrc : ∀ c ∈ src, c ≠ NUL) :
    ∀ (fuel k : Nat), k ≤ src.length → src.length - k < fuel →
      string_at (strcpy mem dst src) fuel (dst + k) = src.drop k := by
  intro fuel
  induction fuel with
  | zero => intro k _ h; omega
  | succ fuel ih =>
    intro k hk hf
    unfold string_at
    rcases Nat.lt_or_ge k src.length with hlt | hge
    · have hv : strcpy mem dst src (dst + k) = src[k] := by
        unfold strcpy
        rw [if_pos ⟨by omega, by omega⟩]
        have : dst + k - dst = k := by omega
        rw [this, List.getD_eq_getElem _ _ hlt]
      rw [hv, if_neg (hsrc _ (List.getElem_mem _)), Nat.add_assoc, ih (k + 1) hlt (by omega)]
      exact (List.drop_eq_getElem_cons hlt).symm
    · have hk2 : k = src.length := by omega
      have hv : strcpy mem dst src (dst + k) = NUL := by
        unfold strcpy
        rw [if_neg (by omega), if_pos (by omega)]
      rw [hv, if_pos rfl, hk2, List.drop_length]

theorem string_at_congr (m1 m2 : Nat → Char) :
    ∀ (fuel a : Nat), (∀ b, a ≤ b → m1 b = m2 b) →
      string_at m1 fuel a = string_at m2 fuel a := by
  intro fuel
  induction fuel with
  | zero => intro a _; rfl
  | succ fuel ih =>
    intro a h
    unfold string_at
    rw [h a (le_refl a), ih (a + 1) (fun b hb => h b (by omega))]

theorem string_at_congr_until (m1 m2 : Nat → Char) :
    ∀ (fuel a k : Nat), (∀ b, a ≤ b → b ≤ a + k → m1 b = m2 b) → m1 (a + k) = NUL →
      string_at m1 fuel a = string_at m2 fuel a := by
  intro fuel
  induction fuel with
  | zero => intro a k _ _; rfl
  | succ fuel ih =>
    intro a k h hz
    unfold string_at
    rw [← h a (le_refl a) (by omega)]
    rcases Nat.eq_zero_or_pos k with hk | hk
    · rw [hk, Nat.add_zero] at hz
      rw [if_pos hz, if_pos hz]
    · rw [ih (a + 1) (k - 1) (fun b hb1 hb2 => h b (by omega) (by omega))
        (by rw [← hz]; congr 1; omega)]

/-- Within the capacity of a row the copy of `set_name` changes row `i` only:
when the name has fewer than `MAX_NAME` characters and every other row holds a
terminated string, the rows after `strcpy(username[i], name)` are the rows
before with row `i` replaced by the name. -/
theorem username_rows_strcpy_fits (mem : Nat → Char) (i : Nat) (src : CStr)
    (hsrc : ∀ c ∈ src, c ≠ NUL) (hlen : src.length < MAX_NAME)
    (hfit : ∀ j, j < MAX_CLIENT → j ≠ i → ∃ k, k < MAX_NAME ∧ mem (j * MAX_NAME + k) = NUL) :
    ∀ j, j < MAX_CLIENT →
      username_rows (strcpy mem (i * MAX_NAME) src) j = store (username_rows mem) i src j := by
  intro j hj
  by_cases hji : j = i
  · rw [hji, store_same]
    have h := string_at_strcpy mem (i * MAX_NAME) src hsrc (MAX_CLIENT * MAX_NAME) 0
      (Nat.zero_le _) (by simp only [MAX_CLIENT, MAX_NAME] at *; omega)
    simpa [username_rows] using h
  · rw [store_other _ _ _ _ hji]
    obtain ⟨k, hk, hz⟩ := hfit j hj hji
    have hcmp : ∀ b, j * MAX_NAME ≤ b → b ≤ j * MAX_NAME + k →
        strcpy mem (i * MAX_NAME) src b = mem b := by
      intro b hb1 hb2
      unfold strcpy
      simp only [MAX_NAME] at *
      rcases Nat.lt_or_gt_of_ne hji with hlt | hgt
      · rw [if_neg (by omega), if_neg (by omega)]
      · rw [if_neg (by omega), if_neg (by omega)]
    unfold username_rows
    apply string_at_congr_until _ _ _ _ k hcmp
    rw [hcmp _ (by omega) (le_refl _)]
    exact hz

/-! ## Claims -/

/-- C1: for every link array, `user_free` returns the smallest index below
`MAX_CLIENT` whose entry is 0 when there is such an index, and it returns -1
exactly when all `MAX_CLIENT` entries are non-zero.  The value of the word
after the array, which the loop reads when every entry is non-zero, plays no
role. -/
theorem user_free_lowest_free_slot (usrlink : Nat → Int) :
    ((∃ i, i < MAX_CLIENT ∧ usrlink i = 0) →
      ∃ k : Nat, k < MAX_CLIENT ∧ user_free usrlink = (k : Int) ∧ usrlink k = 0 ∧
        ∀ j, j < k → usrlink j ≠ 0) ∧
    (user_free usrlink = -1 ↔ ∀ i, i < MAX_CLIENT → usrlink i ≠ 0) :=
  user_free_spec usrlink

set_option maxRecDepth 4096 in
/-- C2, at a name that is longer than a row of `username`.  Two clients are
live in slots 0 and 1 and neither has registered.  Slot 0 sends `/` and 150
letters `a`: the line is classified as a registration, its announcement goes
to slot 1, and `set_name` copies the 150 letters and the NUL, 151 bytes, to
`username[0]`, a row of `MAX_NAME` bytes.  Whatever the array held before, row 0 then reads as the 150 letters,
row 1 reads as the last 50 of them, and the rows from 2 on are as before.
Slot 1 has never registered, yet its line `/Bob` now fails the test
`username[1][0] == 0`: it is rewritten by `add_name` and relayed to slot 0 as a
chat line of the nickname `aaa...a`, text `/Bo`, and no nickname `Bob` is
stored. -/
theorem long_nickname_spills_into_next_row (mem : Nat → Char) :
    (handle_line two_clients 0 ('/' :: List.replicate 150 'a')).map (fun r => r.2)
      = some [Event.write 5 (join_line (List.replicate 150 'a'))] ∧
    (set_name ('/' :: List.replicate 150 'a')).2 = List.replicate 150 'a' ∧
    MAX_NAME < (List.replicate 150 'a').length + 1 ∧
    username_rows (strcpy mem (0 * MAX_NAME) (List.replicate 150 'a')) 0
      = List.replicate 150 'a' ∧
    username_rows (strcpy mem (0 * MAX_NAME) (List.replicate 150 'a')) 1
      = List.replicate 50 'a' ∧
    (∀ j, 2 ≤ j →
      username_rows (strcpy mem (0 * MAX_NAME) (List.replicate 150 'a')) j
        = username_rows mem j) ∧
    handle_line
        { two_clients with
          username := username_rows (strcpy mem (0 * MAX_NAME) (List.replicate 150 'a')) }
        1 "/Bob".toList
      = some
        ({ two_clients with
            username := username_rows (strcpy mem (0 * MAX_NAME) (List.replicate 150 'a')) },
          [Event.write 4
            (relayed_chat_line (List.replicate 50 'a') "/Bo".toList
              "hostB:10.0.0.2:5".toList)]) := by
  have hsrc : ∀ c ∈ List.replicate 150 'a', c ≠ NUL := by
    intro c hc
    rw [List.eq_of_mem_replicate hc]
    decide
  have hlen : (List.replicate 150 'a').length = 150 := List.length_replicate _ _
  have h0 : username_rows (strcpy mem (0 * MAX_NAME) (List.replicate 150 'a')) 0
      = List.replicate 150 'a' := by
    have h := string_at_strcpy mem (0 * MAX_NAME) _ hsrc (MAX_CLIENT * MAX_NAME) 0
      (Nat.zero_le _) (by rw [hlen]; decide)
    exact h
  have h1 : username_rows (strcpy mem (0 * MAX_NAME) (List.replicate 150 'a')) 1
      = List.replicate 50 'a' := by
    have h := string_at_strcpy mem (0 * MAX_NAME) _ hsrc (MAX_CLIENT * MAX_NAME) 100
      (by rw [hlen]; decide) (by rw [hlen]; decide)
    have hd : List.drop 100 (List.replicate 150 'a') = List.replicate 50 'a' := by decide
    rw [hd] at h
    exact h
  refine ⟨?_, rfl, by rw [hlen]; decide, h0, h1, ?_, ?_⟩
  · have hf : (List.range MAX_CLIENT).filter
        (fun k => decide (k ≠ 0 ∧ two_clients.userlink k = 1)) = [1] := by decide
    rw [handle_line_set_name two_clients 0 _ rfl, Option.map_some', distribute_eq, hf]
    rfl
  · intro j hj
    unfold username_rows
    apply string_at_congr
    intro b hb
    unfold strcpy
    simp only [MAX_NAME, List.length_replicate] at hb ⊢
    rw [if_neg (by omega), if_neg (by omega)]
  · have hf : (List.range MAX_CLIENT).filter
        (fun k => decide (k ≠ 1 ∧ two_clients.userlink k = 1)) = [0] := by decide
    have hadd : add_name two_clients.usermap "/Bob".toList (List.replicate 50 'a')
        (((1 : Nat) : Int) + 4)
        = some (relayed_chat_line (List.replicate 50 'a') "/Bo".toList
            "hostB:10.0.0.2:5".toList) := by decide
    rw [handle_line_chat _ 1 _
      (by
        intro h
        have h2 : username_rows (strcpy mem (0 * MAX_NAME) (List.replicate 150 'a')) 1 = [] :=
          h.2
        rw [h1] at h2
        exact absurd h2 (by decide))
      (by decide)]
    show Option.map _ (add_name two_clients.usermap "/Bob".toList
      (username_rows (strcpy mem (0 * MAX_NAME) (List.replicate 150 'a')) 1)
      (((1 : Nat) : Int) + 4)) = _
    rw [h1, hadd, Option.map_some', distribute_eq]
    show some (_, List.map _ ((List.range MAX_CLIENT).filter
      (fun k => decide (k ≠ 1 ∧ two_clients.userlink k = 1)))) = _
    rw [hf]
    rfl

/-- C3, refuted as stated: the first client of `two_clients`, live and without
nickname, sends exactly `/q`.  The server does not release it: the link flag
stays 1, the nickname becomes `q`, and the other client is sent
`q join the room...`. -/
theorem unnamed_quit_line_registers_q :
    ∃ s1 out, client_step two_clients (env_read 0 "/q") 0 = some (s1, out) ∧
      s1.userlink 0 = 1 ∧ s1.username 0 = "q".toList ∧
      out = [Event.read 4,
        Event.write 5 (MAG ++ "q join the room...".toList ++ RESET ++ "\n".toList)] := by
  refine ⟨_, _, rfl, ?_, ?_, ?_⟩ <;> decide

/-- C3, amended: a line beginning with `/q` read from a live session without
nickname registers a nickname (`q` followed by the rest of the line) and the
session stays live; read from a live session that has a nickname (and its
`usermap` entry) it releases the slot: link flag 0, nickname empty. -/
theorem quit_line_needs_nickname (s : Server) (e : Env) (i : Nat) (b : List Char)
    (hlive : s.userlink i = 1) (hready : s.sockset (s.userfd i) = true)
    (hread : e.reads i = ReadResult.bytes ('/' :: 'q' :: b)) :
    (s.username i = [] →
      ∃ s1 out, client_step s e i = some (s1, out) ∧ s1.userlink i = 1 ∧
        s1.username i = 'q' :: cstr b) ∧
    (s.username i ≠ [] → ∀ d, s.usermap ((i : Int) + 4) = some d →
      ∃ s1 out, client_step s e i = some (s1, out) ∧ s1.userlink i = 0 ∧
        s1.username i = []) := by
  have hstep := client_step_bytes s e i _ hlive hready hread (by simp)
  rw [cstr_slash_q] at hstep
  constructor
  · intro hname
    rw [handle_line_set_name s i _ hname] at hstep
    exact ⟨_, _, hstep, hlive, store_same _ _ _⟩
  · intro hname d hd
    rw [handle_line_quit s i _ d hname hd] at hstep
    exact ⟨_, _, hstep, store_same _ _ _, store_same _ _ _⟩

/-- C3, amended, at `/q`: sent by the first client of `two_clients` (no
nickname) and by the first client of `alice_and_bob` (nickname `Alice`). -/
theorem quit_line_needs_nickname_witness :
    (∃ s1 out, client_step two_clients (env_read 0 "/q") 0 = some (s1, out) ∧
        s1.userlink 0 = 1 ∧ s1.username 0 = 'q' :: cstr []) ∧
    (∃ s1 out, client_step alice_and_bob (env_read 0 "/q") 0 = some (s1, out) ∧
        s1.userlink 0 = 0 ∧ s1.username 0 = []) :=
  ⟨(quit_line_needs_nickname two_clients (env_read 0 "/q") 0 []
      (by decide) (by decide) (by decide)).1 (by decide),
   (quit_line_needs_nickname alice_and_bob (env_read 0 "/q") 0 []
      (by decide) (by decide) (by decide)).2 (by decide) "hostA:10.0.0.1:4".toList (by decide)⟩

set_option maxRecDepth 8192 in
/-- C4, at a chat line whose rewritten form is longer than `line`.  The
session in slot 0 of a table of two registers as `alice`.  Its next line
`/bob` with the newline of a chat line leaves the nickname `alice` and is
relayed to slot 1 as a chat line of `alice` with the text `/bob`: the example
of the claim holds.  Its line of 500 letters `x` and a newline, 501 bytes, is
a chat line as well; `theline` holds `alice`, the separator and the line in
509 bytes, but the line that `add_name` then formats has 546 characters, and
`sprintf` stores them and the NUL, 547 bytes, from the start of `line`, a
buffer of `BUF_SIZE` bytes.  Whatever memory held before, the 34 characters
from the blank before the display info to the final newline now stand in the
bytes that follow `line`. -/
theorem long_chat_line_overruns_line (mem : Nat → Char) :
    ∃ s1 out1,
      handle_line two_clients 0 "/alice".toList = some (s1, out1) ∧
      s1.username 0 = "alice".toList ∧
      handle_line s1 0 "/bob\n".toList
        = some (s1, [Event.write 5
            (relayed_chat_line "alice".toList "/bob".toList "hostA:10.0.0.1:4".toList)]) ∧
      (List.replicate 500 'x' ++ "\n".toList).length ≤ BUF_SIZE ∧
      ("alice".toList ++ ": ".toList ++ (List.replicate 500 'x' ++ "\n".toList)).length + 1
        ≤ BUF_SIZE ∧
      ∃ out,
        add_name s1.usermap (List.replicate 500 'x' ++ "\n".toList) (s1.username 0)
          (((0 : Nat) : Int) + 4) = some out ∧
        handle_line s1 0 (List.replicate 500 'x' ++ "\n".toList)
          = some (s1, [Event.write 5 out]) ∧
        out.length = 546 ∧
        BUF_SIZE < out.length + 1 ∧
        string_at (strcpy mem 0 out) BUF_SIZE BUF_SIZE
          = " ".toList ++ CYN ++ "[from hostA:10.0.0.1:4]".toList ++ RESET ++ "\n".toList := by
  have hf : (List.range MAX_CLIENT).filter
      (fun k => decide (k ≠ 0 ∧ two_clients.userlink k = 1)) = [1] := by decide
  have hdist : ∀ (names : Nat → CStr) (l : CStr),
      distribute { two_clients with username := names } 0 l = [Event.write 5 l] := by
    intro names l
    rw [distribute_eq]
    show List.map _ ((List.range MAX_CLIENT).filter
      (fun k => decide (k ≠ 0 ∧ two_clients.userlink k = 1))) = _
    rw [hf]
    rfl
  have hbob : add_name two_clients.usermap "/bob\n".toList "alice".toList (((0 : Nat) : Int) + 4)
      = some (relayed_chat_line "alice".toList "/bob".toList "hostA:10.0.0.1:4".toList) := by
    decide!
  have hlong : add_name two_clients.usermap (List.replicate 500 'x' ++ "\n".toList)
      "alice".toList (((0 : Nat) : Int) + 4)
      = some (relayed_chat_line "alice".toList (List.replicate 500 'x')
          "hostA:10.0.0.1:4".toList) := by
    decide!
  have hnul : ∀ c ∈ relayed_chat_line "alice".toList (List.replicate 500 'x')
      "hostA:10.0.0.1:4".toList, c ≠ NUL := by
    decide!
  have hlen : (relayed_chat_line "alice".toList (List.replicate 500 'x')
      "hostA:10.0.0.1:4".toList).length = 546 := by
    decide!
  have hdrop : (relayed_chat_line "alice".toList (List.replicate 500 'x')
      "hostA:10.0.0.1:4".toList).drop BUF_SIZE
      = " ".toList ++ CYN ++ "[from hostA:10.0.0.1:4]".toList ++ RESET ++ "\n".toList := by
    decide!
  have hchat : ∀ (l : CStr), ¬ (l.head? = some '/' ∧ l.get? 1 = some 'q') →
      handle_line { two_clients with username := store two_clients.username 0 "alice".toList }
        0 l
      = (add_name two_clients.usermap l "alice".toList (((0 : Nat) : Int) + 4)).map
          (fun l1 =>
            ({ two_clients with username := store two_clients.username 0 "alice".toList },
              [Event.write 5 l1])) := by
    intro l hl
    rw [handle_line_chat _ 0 l (fun h => absurd h.2 (by decide)) hl]
    show Option.map _ (add_name two_clients.usermap l "alice".toList _) = _
    cases add_name two_clients.usermap l "alice".toList (((0 : Nat) : Int) + 4) with
    | none => rfl
    | some l1 =>
      show some (_, distribute _ 0 l1) = some (_, _)
      rw [hdist]
  refine ⟨{ two_clients with username := store two_clients.username 0 "alice".toList }, _,
    handle_line_set_name two_clients 0 "alice".toList rfl, rfl, ?_, by decide!, by decide!,
    relayed_chat_line "alice".toList (List.replicate 500 'x') "hostA:10.0.0.1:4".toList,
    hlong, ?_, hlen, by rw [hlen]; decide, ?_⟩
  · rw [hchat _ (by decide), hbob]
    rfl
  · rw [hchat _ (by decide!), hlong]
    rfl
  · have h := string_at_strcpy mem 0 _ hnul BUF_SIZE BUF_SIZE (by rw [hlen]; decide)
      (by rw [hlen]; decide)
    rw [Nat.zero_add, hdrop] at h
    exact h

/-- C5: when the `read` on a live, ready slot `i` returns a positive length,
the step has a result whenever the `usermap` entry of the slot exists, and in
every result the calls after the `read` are the writes of one line to the
descriptors of the slots `j` other than `i` with link flag 1, each once, in
ascending order of `j`.  No write goes to the descriptor of slot `i`, as long
as no other live slot holds the same descriptor. -/
theorem no_self_echo (s : Server) (e : Env) (i : Nat) (b : List Char)
    (hlive : s.userlink i = 1) (hready : s.sockset (s.userfd i) = true)
    (hread : e.reads i = ReadResult.bytes b) (hpos : 0 < (e.reads i).length) :
    ((s.usermap ((i : Int) + 4)).isSome = true → (client_step s e i).isSome = true) ∧
    ∀ s1 out, client_step s e i = some (s1, out) →
      (∃ line1, out = Event.read (s.userfd i) ::
        ((List.range MAX_CLIENT).filter (fun j => decide (j ≠ i ∧ s.userlink j = 1))).map
          (fun j => Event.write (s.userfd j) line1)) ∧
      ((∀ j, j < MAX_CLIENT → j ≠ i → s.userlink j = 1 → s.userfd j ≠ s.userfd i) →
        ∀ line1, Event.write (s.userfd i) line1 ∉ out) := by
  have hb : b ≠ [] := by
    intro h0
    rw [hread, h0] at hpos
    exact absurd hpos (by decide)
  have hstep := client_step_bytes s e i b hlive hready hread hb
  constructor
  · intro hmap
    rw [hstep]
    have := handle_line_isSome s i (cstr b) hmap
    simpa using this
  · intro s1 out h
    rw [hstep] at h
    cases hh : handle_line s i (cstr b) with
    | none => rw [hh] at h; exact absurd h (by simp)
    | some r =>
      obtain ⟨t, out0⟩ := r
      rw [hh] at h
      simp only [Option.map_some', Option.some.injEq, Prod.mk.injEq] at h
      obtain ⟨line1, hout⟩ := handle_line_out s t i (cstr b) out0 hh
      have hout1 : out = Event.read (s.userfd i) ::
          ((List.range MAX_CLIENT).filter (fun j => decide (j ≠ i ∧ s.userlink j = 1))).map
            (fun j => Event.write (s.userfd j) line1) := by
        rw [← h.2, hout, distribute_eq]
      refine ⟨⟨line1, hout1⟩, ?_⟩
      intro hinj l hmem
      rw [hout1] at hmem
      simp only [List.mem_cons, List.mem_map, List.mem_filter, List.mem_range,
        decide_eq_true_eq, Event.write.injEq, reduceCtorEq, false_or] at hmem
      obtain ⟨j, ⟨hj, hji, hj1⟩, hfd, _⟩ := hmem
      exact hinj j hj hji hj1 hfd

/-- C5, at the first client of `alice_and_bob` sending `hello` and a newline:
the step has a result, and what follows the `read` is the one write to
descriptor 5. -/
theorem no_self_echo_witness :
    (client_step alice_and_bob (env_read 0 "hello\n") 0).isSome = true ∧
    ∀ s1 out, client_step alice_and_bob (env_read 0 "hello\n") 0 = some (s1, out) →
      (∃ line1, out = Event.read 4 ::
        ((List.range MAX_CLIENT).filter
          (fun j => decide (j ≠ 0 ∧ alice_and_bob.userlink j = 1))).map
          (fun j => Event.write (alice_and_bob.userfd j) line1)) ∧
      ∀ line1, Event.write 4 line1 ∉ out :=
  have h := no_self_echo alice_and_bob (env_read 0 "hello\n") 0 "hello\n".toList
    (by decide) (by decide) (by decide) (by decide)
  ⟨h.1 (by decide), fun s1 out hs => ⟨(h.2 s1 out hs).1, (h.2 s1 out hs).2 (by decide)⟩⟩

/-- C6: a live session `i` with nickname `n` (non-empty) and `usermap` entry
that sends a line beginning with `/q`: the line written is `MAG`, `n`,
` leave the room...`, `RESET`, newline; it goes to the descriptors of the
other slots with link flag 1, in ascending order, and not to slot `i`; after
the step the link flag of `i` is 0, its nickname is empty, its `usermap` entry
is erased, the other link flags are as before; and `user_free` returns `i`
when every lower slot is taken. -/
theorem quit_announced_then_slot_free (s : Server) (e : Env) (i : Nat) (b : List Char)
    (n d : CStr) (hlive : s.userlink i = 1) (hready : s.sockset (s.userfd i) = true)
    (hname : s.username i = n) (hne : n ≠ [])
    (hmap : s.usermap ((i : Int) + 4) = some d)
    (hread : e.reads i = ReadResult.bytes ('/' :: 'q' :: b)) :
    ∃ s1, client_step s e i = some (s1, Event.read (s.userfd i) ::
        ((List.range MAX_CLIENT).filter (fun j => decide (j ≠ i ∧ s.userlink j = 1))).map
          (fun j => Event.write (s.userfd j)
            (MAG ++ n ++ " leave the room...".toList ++ RESET ++ "\n".toList))) ∧
      s1.userlink i = 0 ∧ s1.username i = [] ∧ s1.usermap ((i : Int) + 4) = none ∧
      (∀ j, j ≠ i → s1.userlink j = s.userlink j) ∧
      (i < MAX_CLIENT → (∀ j, j < i → s.userlink j ≠ 0) → user_free s1.userlink = (i : Int)) := by
  have hstep := client_step_bytes s e i _ hlive hready hread (by simp)
  rw [cstr_slash_q, handle_line_quit s i _ d (hname ▸ hne) hmap] at hstep
  refine ⟨{ s with
              usermap := map_erase s.usermap ((i : Int) + 4)
              userlink := store s.userlink i 0
              username := store s.username i []
              sockset := FD_CLR (s.userfd i) s.sockset },
    ?_, store_same _ _ _, store_same _ _ _, ?_, ?_, ?_⟩
  · rw [hstep, distribute_eq, hname]
    rfl
  · simp [map_erase]
  · intro j hj
    exact store_other _ _ _ _ hj
  · intro hi hlow
    apply user_free_eq_of_lowest _ i hi (store_same _ _ _)
    intro j hj
    rw [store_other _ _ _ _ (Nat.ne_of_lt hj)]
    exact hlow j hj

/-- C6, at the first client of `alice_and_bob` sending `/q` and a newline. -/
theorem quit_announced_then_slot_free_witness :
    ∃ s1, client_step alice_and_bob (env_read 0 "/q\n") 0 = some (s1,
        Event.read 4 ::
        ((List.range MAX_CLIENT).filter
          (fun j => decide (j ≠ 0 ∧ alice_and_bob.userlink j = 1))).map
          (fun j => Event.write (alice_and_bob.userfd j)
            (MAG ++ "Alice".toList ++ " leave the room...".toList ++ RESET ++ "\n".toList))) ∧
      s1.userlink 0 = 0 ∧ s1.username 0 = [] ∧ s1.usermap 4 = none ∧
      (∀ j, j ≠ 0 → s1.userlink j = alice_and_bob.userlink j) ∧
      (0 < MAX_CLIENT → (∀ j, j < 0 → alice_and_bob.userlink j ≠ 0) →
        user_free s1.userlink = 0) :=
  quit_announced_then_slot_free alice_and_bob (env_read 0 "/q\n") 0 "\n".toList
    "Alice".toList "hostA:10.0.0.1:4".toList
    (by decide) (by decide) (by decide) (by decide) (by decide) (by decide)

/-- C7: for a nickname `n`, a display info `d` stored under the key passed
to `add_name`, and a chat line made of a text `t` and one trailing newline,
`add_name` rewrites the line to `YEL`, `n`, `: `, `t`, a blank, `CYN`,
`[from `, `d`, `]`, `RESET`, newline.  With the colour decoration removed
(fields free of ESC) that is `n: t [from d]` followed by the newline that ends
the line. -/
theorem add_name_chat_format (usermap : Int → Option CStr) (n t d : CStr) (sockfd : Int)
    (hmap : usermap sockfd = some d) :
    add_name usermap (t ++ "\n".toList) n sockfd =
      some (YEL ++ n ++ ": ".toList ++ t ++ " ".toList ++ CYN ++ "[from ".toList ++ d
        ++ "]".toList ++ RESET ++ "\n".toList) ∧
    (ESC ∉ n → ESC ∉ t → ESC ∉ d →
      (add_name usermap (t ++ "\n".toList) n sockfd).map without_colour =
        some (n ++ ": ".toList ++ t ++ " [from ".toList ++ d ++ "]".toList ++ "\n".toList)) := by
  have h1 : add_name usermap (t ++ "\n".toList) n sockfd =
      some (YEL ++ n ++ ": ".toList ++ t ++ " ".toList ++ CYN ++ "[from ".toList ++ d
        ++ "]".toList ++ RESET ++ "\n".toList) := by
    unfold add_name
    simp only [hmap]
    rw [← List.append_assoc (n ++ ": ".toList) t, dropLast_append_newline]
    simp only [List.append_assoc]
  refine ⟨h1, ?_⟩
  intro hn ht hd
  rw [h1]
  simp only [Option.map_some', Option.some.injEq, without_colour]
  have e1 : YEL ++ n ++ ": ".toList ++ t ++ " ".toList ++ CYN ++ "[from ".toList ++ d
        ++ "]".toList ++ RESET ++ "\n".toList =
      YEL ++ ((n ++ ": ".toList ++ t ++ " ".toList) ++ (CYN ++ (("[from ".toList ++ d
        ++ "]".toList) ++ (RESET ++ "\n".toList)))) := by
    simp only [List.append_assoc]
  have hA : ESC ∉ n ++ ": ".toList ++ t ++ " ".toList := by
    simp only [List.mem_append, not_or]
    exact ⟨⟨⟨hn, by decide⟩, ht⟩, by decide⟩
  have hB : ESC ∉ "[from ".toList ++ d ++ "]".toList := by
    simp only [List.mem_append, not_or]
    exact ⟨⟨by decide, hd⟩, by decide⟩
  have hY : ∀ x, without_colour_scan false (YEL ++ x) = without_colour_scan false x := by
    intro x; rfl
  have hC : ∀ x, without_colour_scan false (CYN ++ x) = without_colour_scan false x := by
    intro x; rfl
  have hR : without_colour_scan false (RESET ++ "\n".toList) = "\n".toList := by
    decide
  rw [e1, hY, without_colour_scan_append _ _ hA, hC, without_colour_scan_append _ _ hB, hR]
  simp only [List.append_assoc]
  rfl

/-- C7, at nickname `Alice`, text `hello`, and the display info stored for
the first client of `alice_and_bob`. -/
theorem add_name_chat_format_witness :
    add_name alice_and_bob.usermap ("hello".toList ++ "\n".toList) "Alice".toList 4 =
      some (YEL ++ "Alice".toList ++ ": ".toList ++ "hello".toList ++ " ".toList ++ CYN
        ++ "[from ".toList ++ "hostA:10.0.0.1:4".toList ++ "]".toList ++ RESET ++ "\n".toList) ∧
    (add_name alice_and_bob.usermap ("hello".toList ++ "\n".toList) "Alice".toList 4).map
        without_colour =
      some ("Alice".toList ++ ": ".toList ++ "hello".toList ++ " [from ".toList
        ++ "hostA:10.0.0.1:4".toList ++ "]".toList ++ "\n".toList) :=
  have h := add_name_chat_format alice_and_bob.usermap "Alice".toList "hello".toList
    "hostA:10.0.0.1:4".toList 4 (by decide)
  ⟨h.1, h.2 (by decide) (by decide) (by decide)⟩

/-- C9, the code at the failing input `stale_info_run`: after A's slot 1 is
freed by a zero-length read and B is accepted into it with descriptor 6, the
`usermap` entry under key 5 is still the string computed for A, and B's chat
line reaches C (descriptor 4) attributed to A's host and address; the string
computed at B's accept is another one. -/
theorem display_info_stale_after_disconnect :
    stale_info_run.map
        (fun r => (r.1.userlink 1, r.1.userfd 1, r.1.usermap 5, written_to 4 r.2)) =
      some (1, 6, some "hostA:10.0.0.1:5".toList,
        [join_line "Bob".toList,
         relayed_chat_line "Bob".toList "hi".toList "hostA:10.0.0.1:5".toList]) ∧
    userinfo "hostB".toList "10.0.0.2".toList 1 = "hostB:10.0.0.2:5".toList := by
  constructor <;> decide!

/-- C10: in a reachable state the number of slots with link flag 1 is at most
`MAX_CLIENT`; when it is `MAX_CLIENT` the accept block of the iteration calls
nothing and changes nothing (link flags, descriptors, nicknames included);
when it is lower, the listener is ready and `accept` returns a descriptor, the
block takes a slot whose flag was 0: flag 1, descriptor stored, the other
slots and all nicknames as before.  Every link flag of a reachable state is 0
or 1, so the slots that are not counted are free. -/
theorem capacity_respected (s : Server) (e : Env) (hr : Reachable s) :
    live_count s ≤ MAX_CLIENT ∧
    (live_count s = MAX_CLIENT →
      accept_step (select_step s e) e = (select_step s e, [])) ∧
    (live_count s < MAX_CLIENT →
      (select_step s e).sockset s.sockfd = true → 0 ≤ e.newsockfd →
      ∃ j : Nat, j < MAX_CLIENT ∧ s.userlink j = 0 ∧
        (accept_step (select_step s e) e).2 = [Event.accept e.newsockfd] ∧
        (accept_step (select_step s e) e).1.userlink j = 1 ∧
        (accept_step (select_step s e) e).1.userfd j = e.newsockfd ∧
        (∀ m, m ≠ j → (accept_step (select_step s e) e).1.userlink m = s.userlink m ∧
          (accept_step (select_step s e) e).1.userfd m = s.userfd m) ∧
        (accept_step (select_step s e) e).1.username = s.username) ∧
    (∀ i, i < MAX_CLIENT → s.userlink i = 0 ∨ s.userlink i = 1) := by
  have hok := link_flags_ok_of_reachable s hr
  refine ⟨live_count_le s, ?_, ?_, hok⟩
  · intro hfull
    have hall := (live_count_eq_max_iff s).mp hfull
    have hneg : user_free (select_step s e).userlink = -1 := by
      rw [user_free_eq_neg_one_iff]
      intro i hi
      show s.userlink i ≠ 0
      rw [hall i hi]; decide
    unfold accept_step
    rw [if_neg]
    rw [hneg]
    intro h
    exact absurd h.2 (by decide)
  · intro hlt hready hacc
    have hfree : ∃ k, k < MAX_CLIENT ∧ s.userlink k = 0 := by
      by_contra hno
      apply Nat.lt_irrefl MAX_CLIENT
      have hall : ∀ i, i < MAX_CLIENT → s.userlink i = 1 := by
        intro i hi
        rcases hok i hi with h0 | h1
        · exact absurd ⟨i, hi, h0⟩ hno
        · exact h1
      rw [(live_count_eq_max_iff s).mpr hall] at hlt
      exact absurd hlt (Nat.lt_irrefl _)
    obtain ⟨j, hj, hfj, hj0, _⟩ := (user_free_spec s.userlink).1 hfree
    have hfj1 : user_free (select_step s e).userlink = (j : Int) := hfj
    refine ⟨j, hj, hj0, ?_⟩
    have hstep : accept_step (select_step s e) e =
        ({ (select_step s e) with
            userlink := store s.userlink j 1
            userfd := store s.userfd j e.newsockfd
            sockset := FD_SET e.newsockfd (select_step s e).sockset
            maxfd := max s.maxfd (e.newsockfd + 1)
            usermap :=
              if (s.usermap e.newsockfd).isNone then
                map_insert s.usermap ((j : Int) + 4) (userinfo e.hostname e.ipbuf j)
              else s.usermap },
          [Event.accept e.newsockfd]) := by
      unfold accept_step
      rw [if_pos ⟨hready, by rw [hfj1]; omega⟩, if_neg (by omega)]
      simp only [hfj1, Int.toNat_ofNat]
      rfl
    rw [hstep]
    refine ⟨rfl, store_same _ _ _, store_same _ _ _, ?_, rfl⟩
    intro m hm
    exact ⟨store_other _ _ _ _ hm, store_other _ _ _ _ hm⟩

/-- C10, at three reachable tables.  After `MAX_CLIENT` arrivals from the
start every slot is live and the accept block of the next iteration, with
another client waiting, calls nothing and changes nothing.  After the client
in slot 5 of that table closes its connection (zero-length read on descriptor
9), the next arrival is admitted.  At the start, with no slot taken, a first
arrival is admitted. -/
theorem capacity_respected_witness :
    (∃ s out, main_loop (arrivals MAX_CLIENT) state0 = some (s, out) ∧
      live_count s = MAX_CLIENT ∧
      accept_step (select_step s (arrival MAX_CLIENT)) (arrival MAX_CLIENT) =
        (select_step s (arrival MAX_CLIENT), [])) ∧
    (∃ s out, main_loop (arrivals MAX_CLIENT ++ [line_env 9 5 []]) state0 = some (s, out) ∧
      live_count s < MAX_CLIENT ∧
      ∃ j : Nat, j < MAX_CLIENT ∧ s.userlink j = 0 ∧
        (accept_step (select_step s (arrival MAX_CLIENT)) (arrival MAX_CLIENT)).2 =
          [Event.accept 34] ∧
        (accept_step (select_step s (arrival MAX_CLIENT)) (arrival MAX_CLIENT)).1.userlink j
          = 1 ∧
        (accept_step (select_step s (arrival MAX_CLIENT)) (arrival MAX_CLIENT)).1.userfd j
          = 34) ∧
    (live_count state0 ≤ MAX_CLIENT ∧
      ∃ j : Nat, j < MAX_CLIENT ∧ state0.userlink j = 0 ∧
        (accept_step (select_step state0 (arrival 0)) (arrival 0)).2 = [Event.accept 4] ∧
        (accept_step (select_step state0 (arrival 0)) (arrival 0)).1.userlink j = 1 ∧
        (accept_step (select_step state0 (arrival 0)) (arrival 0)).1.userfd j = 4) := by
  have hr0 : Reachable state0 := Reachable.start 3 mem0 state0 rfl
  obtain ⟨names, info, s, out, hrun, ht, _⟩ := arrivals_table state0 (fun _ => [])
    (standard_table_start mem0 state0 _ rfl) MAX_CLIENT (le_refl _)
  have hr : Reachable s := reachable_main_loop _ _ _ _ hr0 hrun
  have hfull : live_count s = MAX_CLIENT :=
    (live_count_eq_max_iff s).mpr (fun i hi => by rw [ht.2.1 i hi, if_pos hi])
  -- the client in slot 5 closes its connection
  have hlive : (select_step s (line_env 9 5 [])).userlink 5 = 1 := by
    show s.userlink 5 = 1
    rw [ht.2.1 5 (by decide)]; rfl
  have hfd5 : s.userfd 5 = 9 := ht.2.2.1 5 (by decide)
  have hready : (select_step s (line_env 9 5 [])).sockset
      ((select_step s (line_env 9 5 [])).userfd 5) = true := by
    show (s.sockset (s.userfd 5) && decide (s.userfd 5 = 9)) = true
    have h5 := ht.2.2.2.2.2.2.2 5 (by decide)
    have h9 : ((5 : Nat) : Int) + 4 = 9 := by decide
    rw [h9] at h5
    rw [hfd5, h5]
    rfl
  have hclose := client_step_closed (select_step s (line_env 9 5 [])) (line_env 9 5 []) 5
    hlive hready rfl
  have hit := main_iteration_single s _ (line_env 9 5 []) 5 _
    (by rw [ht.1]; simp [line_env]) (by decide)
    (by
      intro j hj hj5 hact
      have h2 := hact.2
      rw [ht.2.2.1 j hj] at h2
      have hne : ¬ ((j : Int) + 4 = 9) := by omega
      simp [line_env, hne] at h2)
    hclose
  have hrun2 := main_loop_append _ [line_env 9 5 []] state0 s _ out _ hrun
    (main_loop_cons (line_env 9 5 []) [] s _ _ _ [] hit rfl)
  have hr2 := reachable_main_loop _ _ _ _ hr0 hrun2
  refine ⟨⟨s, out, hrun, hfull, (capacity_respected s (arrival MAX_CLIENT) hr).2.1 hfull⟩,
    ⟨_, _, hrun2, ?_, ?_⟩, ?_⟩
  · apply Nat.lt_of_le_of_ne (live_count_le _)
    intro hmax
    have := (live_count_eq_max_iff _).mp hmax 5 (by decide)
    exact absurd this (by
      show ¬ (store s.userlink 5 0 5 = 1)
      rw [store_same]; decide)
  · have h3 := (capacity_respected _ (arrival MAX_CLIENT) hr2).2.2.1
      (by
        apply Nat.lt_of_le_of_ne (live_count_le _)
        intro hmax
        have := (live_count_eq_max_iff _).mp hmax 5 (by decide)
        exact absurd this (by
          show ¬ (store s.userlink 5 0 5 = 1)
          rw [store_same]; decide))
      (by
        show (add_sockset s.sockfd _ _ s.sockfd && decide (s.sockfd = 3)) = true
        rw [(add_sockset_iff _ _ _ _).mpr (Or.inl rfl), ht.1]
        rfl)
      (by decide)
    obtain ⟨j, hj, hj0, ha, hb, hc, _⟩ := h3
    exact ⟨j, hj, hj0, ha, hb, hc⟩
  · have h := capacity_respected state0 (arrival 0) hr0
    obtain ⟨j, hj, hj0, ha, hb, hc, _⟩ := h.2.2.1 (by decide) (by decide) (by decide)
    exact ⟨h.1, j, hj, hj0, ha, hb, hc⟩

/-! ## Lemmas on a slot whose link flag is 0 -/

theorem client_step_link_zero (t t1 : Server) (e : Env) (i j : Nat) (out : List Event)
    (h0 : t.userlink i = 0) (h : client_step t e j = some (t1, out)) : t1.userlink i = 0 := by
  by_cases hji : i = j
  · subst hji
    have hidle : ¬ (t.userlink i = 1 ∧ t.sockset (t.userfd i) = true) := by
      intro hc
      rw [h0] at hc
      exact absurd hc.1 (by decide)
    rw [client_step_idle t e i hidle] at h
    simp only [Option.some.injEq, Prod.mk.injEq] at h
    rw [← h.1]; exact h0
  · rw [(client_step_frame t t1 e j out h).1 i hji]; exact h0

theorem clients_loop_link_zero (e : Env) (i : Nat) :
    ∀ (n j : Nat) (t t1 : Server) (out : List Event), t.userlink i = 0 →
      clients_loop e n j t = some (t1, out) → t1.userlink i = 0 := by
  intro n
  induction n with
  | zero =>
    intro j t t1 out h0 h
    simp only [clients_loop, Option.some.injEq, Prod.mk.injEq] at h
    rw [← h.1]; exact h0
  | succ n ih =>
    intro j t t1 out h0 h
    unfold clients_loop at h
    cases hc : client_step t e j with
    | none => rw [hc] at h; exact absurd h (by simp)
    | some r =>
      obtain ⟨u, o⟩ := r
      rw [hc] at h
      simp only at h
      cases hl : clients_loop e n (j + 1) u with
      | none => rw [hl] at h; exact absurd h (by simp)
      | some r2 =>
        obtain ⟨u2, o2⟩ := r2
        rw [hl] at h
        simp only [Option.some.injEq, Prod.mk.injEq] at h
        rw [← h.1]
        exact ih (j + 1) u u2 o2 (client_step_link_zero t u e i j o h0 hc) hl

theorem accept_step_link_zero (t : Server) (e : Env) (i : Nat) (h0 : t.userlink i = 0) :
    (accept_step t e).1.userlink i = 0 ∨
      (t.sockset t.sockfd = true ∧ user_free t.userlink = (i : Int) ∧ 0 ≤ e.newsockfd) := by
  unfold accept_step
  split
  · rename_i hc
    split
    · left
      show store t.userlink _ 0 i = 0
      unfold store
      split
      · rfl
      · exact h0
    · rename_i hneg
      by_cases hi : (user_free t.userlink).toNat = i
      · right
        refine ⟨hc.1, ?_, by omega⟩
        have := hc.2
        omega
      · left
        show store t.userlink _ 1 i = 0
        rw [store_other _ _ _ _ (fun h => hi h.symm)]
        exact h0
  · left; exact h0

theorem main_iteration_link_zero (t t1 : Server) (e : Env) (i : Nat) (out : List Event)
    (h0 : t.userlink i = 0) (h : main_iteration t e = some (t1, out)) :
    t1.userlink i = 0 ∨
      ((select_step t e).sockset t.sockfd = true ∧ user_free t.userlink = (i : Int) ∧
        0 ≤ e.newsockfd) := by
  unfold main_iteration at h
  simp only at h
  cases hl : clients_loop e MAX_CLIENT 0 (accept_step (select_step t e) e).1 with
  | none => rw [hl] at h; exact absurd h (by simp)
  | some r =>
    obtain ⟨u, o⟩ := r
    rw [hl] at h
    simp only [Option.some.injEq, Prod.mk.injEq] at h
    rcases accept_step_link_zero (select_step t e) e i h0 with ha | ha
    · left
      rw [← h.1]
      exact clients_loop_link_zero e i _ _ _ u o ha hl
    · right; exact ha

theorem distribute_skips (t : Server) (a i : Nat) (line : CStr) (h0 : t.userlink i = 0) :
    distribute t a line =
      ((List.range MAX_CLIENT).filter
        (fun j => decide (j ≠ a ∧ j ≠ i ∧ t.userlink j = 1))).map
        (fun j => Event.write (t.userfd j) line) := by
  rw [distribute_eq]
  congr 1
  apply List.filter_congr
  intro j _
  by_cases hji : j = i
  · subst hji
    simp [h0]
  · simp [hji]

/-! ## Lemmas on the descriptors that are read -/

theorem reads_of_append (a b : List Event) : reads_of (a ++ b) = reads_of a ++ reads_of b := by
  induction a with
  | nil => rfl
  | cons x xs ih =>
    cases x with
    | accept f => simpa [reads_of] using ih
    | read f => simp [reads_of, ih]
    | write f l => simpa [reads_of] using ih

theorem reads_of_distribute_loop (s : Server) (i : Nat) (line : CStr) :
    ∀ (n j : Nat), reads_of (distribute_loop s i line n j) = [] := by
  intro n
  induction n with
  | zero => intro j; rfl
  | succ n ih =>
    intro j
    unfold distribute_loop
    rw [reads_of_append, ih]
    split <;> rfl

theorem reads_of_handle_line (s s1 : Server) (i : Nat) (line : CStr) (out : List Event)
    (h : handle_line s i line = some (s1, out)) : reads_of out = [] := by
  obtain ⟨l, hl⟩ := handle_line_out s s1 i line out h
  rw [hl]
  exact reads_of_distribute_loop s i l MAX_CLIENT 0

theorem reads_of_client_step (s s1 : Server) (e : Env) (i : Nat) (out : List Event)
    (h : client_step s e i = some (s1, out)) :
    ∀ fd, fd ∈ reads_of out → s.sockset fd = true := by
  intro fd hfd
  by_cases hc : s.userlink i = 1 ∧ s.sockset (s.userfd i) = true
  · have hout : reads_of out = [s.userfd i] := by
      cases hr : e.reads i with
      | error =>
        rw [client_step_error s e i hc.1 hc.2 hr] at h
        simp only [Option.some.injEq, Prod.mk.injEq] at h
        rw [← h.2]; rfl
      | bytes b =>
        by_cases hb : b = []
        · rw [hb] at hr
          rw [client_step_closed s e i hc.1 hc.2 hr] at h
          simp only [Option.some.injEq, Prod.mk.injEq] at h
          rw [← h.2]; rfl
        · rw [client_step_bytes s e i b hc.1 hc.2 hr hb] at h
          cases hh : handle_line s i (cstr b) with
          | none => rw [hh] at h; exact absurd h (by simp)
          | some r =>
            obtain ⟨t, o⟩ := r
            rw [hh] at h
            simp only [Option.map_some', Option.some.injEq, Prod.mk.injEq] at h
            rw [← h.2]
            simp [reads_of, reads_of_handle_line s t i _ o hh]
    rw [hout] at hfd
    rw [List.mem_singleton.mp hfd]
    exact hc.2
  · rw [client_step_idle s e i hc] at h
    simp only [Option.some.injEq, Prod.mk.injEq] at h
    rw [← h.2] at hfd
    exact absurd hfd (by simp [reads_of])

theorem reads_of_clients_loop (e : Env) :
    ∀ (n i : Nat) (s s1 : Server) (out : List Event),
      clients_loop e n i s = some (s1, out) →
      ∀ fd, fd ∈ reads_of out → s.sockset fd = true := by
  intro n
  induction n with
  | zero =>
    intro i s s1 out h fd hfd
    simp only [clients_loop, Option.some.injEq, Prod.mk.injEq] at h
    rw [← h.2] at hfd
    exact absurd hfd (by simp [reads_of])
  | succ n ih =>
    intro i s s1 out h fd hfd
    unfold clients_loop at h
    cases hc : client_step s e i with
    | none => rw [hc] at h; exact absurd h (by simp)
    | some r =>
      obtain ⟨u, o⟩ := r
      rw [hc] at h
      simp only at h
      cases hl : clients_loop e n (i + 1) u with
      | none => rw [hl] at h; exact absurd h (by simp)
      | some r2 =>
        obtain ⟨u2, o2⟩ := r2
        rw [hl] at h
        simp only [Option.some.injEq, Prod.mk.injEq] at h
        rw [← h.2, reads_of_append, List.mem_append] at hfd
        rcases hfd with h1 | h2
        · exact reads_of_client_step s u e i o hc fd h1
        · exact (client_step_frame s u e i o hc).2.2.1 fd (ih (i + 1) u u2 o2 hl fd h2)

theorem accept_step_sockset (t : Server) (e : Env) (fd : Int)
    (h : (accept_step t e).1.sockset fd = true) :
    t.sockset fd = true ∨
      (fd = e.newsockfd ∧ (accept_step t e).2 = [Event.accept e.newsockfd] ∧
        0 ≤ e.newsockfd) := by
  unfold accept_step at h ⊢
  split at h
  · rename_i hc
    rw [if_pos hc]
    split at h
    · left; exact h
    · rename_i hneg
      rw [if_neg hneg]
      by_cases hfd : fd = e.newsockfd
      · right; exact ⟨hfd, rfl, by omega⟩
      · left
        have h1 : FD_SET e.newsockfd t.sockset fd = true := h
        unfold FD_SET at h1
        rw [if_neg hfd] at h1
        exact h1
  · left; exact h

/-- Every `read` of an iteration is on a descriptor that `select` reported
ready, or on the descriptor that `accept` returned in this iteration. -/
theorem reads_guarded_or_new (s s1 : Server) (e : Env) (out : List Event)
    (h : main_iteration s e = some (s1, out)) :
    ∀ fd, fd ∈ reads_of out →
      (s.sockset fd = true ∧ e.ready fd = true) ∨
        (fd = e.newsockfd ∧ Event.accept e.newsockfd ∈ out) := by
  intro fd hfd
  unfold main_iteration at h
  simp only at h
  cases hl : clients_loop e MAX_CLIENT 0 (accept_step (select_step s e) e).1 with
  | none => rw [hl] at h; exact absurd h (by simp)
  | some r =>
    obtain ⟨u, o⟩ := r
    rw [hl] at h
    simp only [Option.some.injEq, Prod.mk.injEq] at h
    rw [← h.2, reads_of_append, List.mem_append] at hfd
    rcases hfd with h1 | h2
    · exfalso
      unfold accept_step at h1
      split at h1
      · split at h1 <;> simp [reads_of] at h1
      · simp [reads_of] at h1
    · rcases accept_step_sockset (select_step s e) e fd
          (reads_of_clients_loop e _ _ _ u o hl fd h2) with ha | ⟨ha, hb, _⟩
      · left
        have : (s.sockset fd && e.ready fd) = true := ha
        simpa using this
      · right
        refine ⟨ha, ?_⟩
        rw [← h.2, hb]
        simp

/-- C11: slot `k` is live and ready, every lower slot is taken, and the
`read` on it returns zero bytes or, for a session with nickname and `usermap`
entry, a line beginning with `/q`.  Then the step releases the slot (link flag
0), `user_free` on the link array returns `k`, and for every table that agrees
with it on the flags up to `k`, `user_free` returns `k` and an accept block
that runs with a ready listener and a descriptor from `accept` sets flag `k`
to 1 and stores the descriptor in `userfd[k]`. -/
theorem slot_reuse (s : Server) (e : Env) (k : Nat) (hk : k < MAX_CLIENT)
    (hlive : s.userlink k = 1) (hready : s.sockset (s.userfd k) = true)
    (hlow : ∀ j, j < k → s.userlink j ≠ 0)
    (hrel : (e.reads k).length = 0 ∨
      ∃ b d, e.reads k = ReadResult.bytes ('/' :: 'q' :: b) ∧ s.username k ≠ [] ∧
        s.usermap ((k : Int) + 4) = some d) :
    ∃ s1 out, client_step s e k = some (s1, out) ∧ s1.userlink k = 0 ∧
      user_free s1.userlink = (k : Int) ∧
      ∀ (t : Server) (e1 : Env), (∀ j, j ≤ k → t.userlink j = s1.userlink j) →
        user_free t.userlink = (k : Int) ∧
        (t.sockset t.sockfd = true → 0 ≤ e1.newsockfd →
          (accept_step t e1).2 = [Event.accept e1.newsockfd] ∧
          (accept_step t e1).1.userlink k = 1 ∧
          (accept_step t e1).1.userfd k = e1.newsockfd) := by
  have key : ∀ s1 : Server, s1.userlink = store s.userlink k 0 →
      s1.userlink k = 0 ∧ user_free s1.userlink = (k : Int) ∧
      ∀ (t : Server) (e1 : Env), (∀ j, j ≤ k → t.userlink j = s1.userlink j) →
        user_free t.userlink = (k : Int) ∧
        (t.sockset t.sockfd = true → 0 ≤ e1.newsockfd →
          (accept_step t e1).2 = [Event.accept e1.newsockfd] ∧
          (accept_step t e1).1.userlink k = 1 ∧
          (accept_step t e1).1.userfd k = e1.newsockfd) := by
    intro s1 hs1
    have hz : s1.userlink k = 0 := by rw [hs1, store_same]
    have hl : ∀ j, j < k → s1.userlink j ≠ 0 := by
      intro j hj
      rw [hs1, store_other _ _ _ _ (Nat.ne_of_lt hj)]
      exact hlow j hj
    refine ⟨hz, user_free_eq_of_lowest _ k hk hz hl, ?_⟩
    intro t e1 hagree
    have hfree : user_free t.userlink = (k : Int) := by
      apply user_free_eq_of_lowest _ k hk
      · rw [hagree k (le_refl _)]; exact hz
      · intro j hj
        rw [hagree j (Nat.le_of_lt hj)]
        exact hl j hj
    refine ⟨hfree, ?_⟩
    intro hlisten hacc
    rw [accept_step_admits t e1 k hlisten hfree hacc]
    exact ⟨rfl, store_same _ _ _, store_same _ _ _⟩
  rcases hrel with h0 | ⟨b, d, hb, hname, hmap⟩
  · have hb : e.reads k = ReadResult.bytes [] := by
      cases hr : e.reads k with
      | error => rw [hr] at h0; exact absurd h0 (by decide)
      | bytes b =>
        rw [hr] at h0
        simp only [ReadResult.length] at h0
        have : b.length = 0 := by omega
        rw [List.length_eq_zero.mp this]
    obtain ⟨a1, a2, a3⟩ := key _ (rfl : ({ s with
        userlink := store s.userlink k 0
        username := store s.username k []
        sockset := FD_CLR (s.userfd k) s.sockset } : Server).userlink = _)
    exact ⟨_, _, client_step_closed s e k hlive hready hb, a1, a2, a3⟩
  · have hstep := client_step_bytes s e k _ hlive hready hb (by simp)
    rw [cstr_slash_q, handle_line_quit s k _ d hname hmap] at hstep
    obtain ⟨a1, a2, a3⟩ := key _ (rfl : ({ s with
        usermap := map_erase s.usermap ((k : Int) + 4)
        userlink := store s.userlink k 0
        username := store s.username k []
        sockset := FD_CLR (s.userfd k) s.sockset } : Server).userlink = _)
    exact ⟨_, _, hstep, a1, a2, a3⟩

/-- C11, at `alice_and_bob`: slot 0 released by a zero-length read, and slot 1
released by `/q` and a newline. -/
theorem slot_reuse_witness :
    (∃ s1 out, client_step alice_and_bob (env_read 0 "") 0 = some (s1, out) ∧
      s1.userlink 0 = 0 ∧ user_free s1.userlink = 0) ∧
    (∃ s1 out, client_step alice_and_bob (env_read 1 "/q\n") 1 = some (s1, out) ∧
      s1.userlink 1 = 0 ∧ user_free s1.userlink = 1) :=
  ⟨(slot_reuse alice_and_bob (env_read 0 "") 0 (by decide) (by decide) (by decide)
      (by decide) (Or.inl (by decide))).imp
      (fun _ h => h.imp (fun _ g => ⟨g.1, g.2.1, g.2.2.1⟩)),
   (slot_reuse alice_and_bob (env_read 1 "/q\n") 1 (by decide) (by decide) (by decide)
      (by decide) (Or.inr ⟨"\n".toList, "hostB:10.0.0.2:5".toList, by decide, by decide,
        by decide⟩)).imp
      (fun _ h => h.imp (fun _ g => ⟨g.1, g.2.1, g.2.2.1⟩))⟩

/-- C12: when the `read` on a live, ready slot `i` returns length zero, the
only call of the step is that `read` (nothing is written); after it the link
flag of `i` is 0 and its nickname empty, the flags and nicknames of the other
slots and all descriptors are as before.  Any distribution over a table in
which the flag of `i` is 0 passes over slot `i`; the flag stays 0 through the
rest of the loop over the clients, and through any later iteration unless the
accept block of that iteration takes slot `i`. -/
theorem disconnect_without_quit (s : Server) (e : Env) (i : Nat)
    (hlive : s.userlink i = 1) (hready : s.sockset (s.userfd i) = true)
    (hread : (e.reads i).length = 0) :
    ∃ s1, client_step s e i = some (s1, [Event.read (s.userfd i)]) ∧
      s1.userlink i = 0 ∧ s1.username i = [] ∧
      (∀ j, j ≠ i → s1.userlink j = s.userlink j ∧ s1.username j = s.username j) ∧
      s1.userfd = s.userfd ∧
      (∀ (t : Server) (a : Nat) (line : CStr), t.userlink i = 0 →
        distribute t a line =
          ((List.range MAX_CLIENT).filter
            (fun j => decide (j ≠ a ∧ j ≠ i ∧ t.userlink j = 1))).map
            (fun j => Event.write (t.userfd j) line)) ∧
      (∀ (n j : Nat) (s2 : Server) (out : List Event),
        clients_loop e n j s1 = some (s2, out) → s2.userlink i = 0) ∧
      (∀ (t t1 : Server) (e1 : Env) (out : List Event), t.userlink i = 0 →
        main_iteration t e1 = some (t1, out) →
        t1.userlink i = 0 ∨
          ((select_step t e1).sockset t.sockfd = true ∧ user_free t.userlink = (i : Int) ∧
            0 ≤ e1.newsockfd)) := by
  have hb : e.reads i = ReadResult.bytes [] := by
    cases hr : e.reads i with
    | error => rw [hr] at hread; exact absurd hread (by decide)
    | bytes b =>
      rw [hr] at hread
      simp only [ReadResult.length] at hread
      have : b.length = 0 := by omega
      rw [List.length_eq_zero.mp this]
  refine ⟨_, client_step_closed s e i hlive hready hb, store_same _ _ _, store_same _ _ _,
    ?_, rfl, ?_, ?_, ?_⟩
  · intro j hj
    exact ⟨store_other _ _ _ _ hj, store_other _ _ _ _ hj⟩
  · intro t a line h0
    exact distribute_skips t a i line h0
  · intro n j s2 out h
    exact clients_loop_link_zero e i n j _ s2 out (store_same _ _ _) h
  · intro t t1 e1 out h0 h
    exact main_iteration_link_zero t t1 e1 i out h0 h

/-- C12, at the first client of `alice_and_bob`. -/
theorem disconnect_without_quit_witness :
    ∃ s1, client_step alice_and_bob (env_read 0 "") 0 = some (s1, [Event.read 4]) ∧
      s1.userlink 0 = 0 ∧ s1.username 0 = [] ∧
      (∀ j, j ≠ 0 → s1.userlink j = alice_and_bob.userlink j ∧
        s1.username j = alice_and_bob.username j) ∧
      s1.userfd = alice_and_bob.userfd :=
  (disconnect_without_quit alice_and_bob (env_read 0 "") 0 (by decide) (by decide)
    (by decide)).imp (fun _ h => ⟨h.1, h.2.1, h.2.2.1, h.2.2.2.1, h.2.2.2.2.1⟩)

/-- C13, the code at the failing input `first_iteration`: `select` reports
only the listener, so descriptor 4 is not reported ready; the accept block
puts descriptor 4, just returned by `accept`, into `sockset`, and the loop over
the clients calls `read` on it in the same iteration (here the `read` returns
`/Alice`, which is registered). -/
theorem new_connection_read_without_select :
    first_iteration.map (fun r => r.2) = some [Event.accept 4, Event.read 4] ∧
    (accept_read_env 4 "hostA".toList "10.0.0.1".toList 0 "/Alice".toList).ready 4 = false ∧
    first_iteration.map (fun r => (r.1.userlink 0, r.1.userfd 0, r.1.username 0)) =
      some (1, 4, "Alice".toList) := by
  refine ⟨?_, ?_, ?_⟩ <;> decide!

end ChatSrv
